import Mathlib

/-!
Verification of the circular singly-linked list in `circular_list.h`
(class `CircularLinkedList<T>`).

The C++ code is embedded shallowly: every node (`Element`) lives in a
per-list allocation store (`Heap`), a `Nat` id plays the role of the
`Element*` address, and the null pointer is `Option.none`.  Each member
function of the class is translated line by line into a Lean function on
this representation; functions that can `throw` return `Except Err` (the
mutating ones also return the resulting list, with every throwing path
returning the list unchanged, exactly as a C++ `throw` placed before any
mutation does).  Dereferencing an address that is not in the store is
undefined behaviour in C++; those branches are marked with the separate
error value `Err.UB` and are unreachable from well-formed lists.
-/

namespace CircularList

/-- The exceptions thrown by `circular_list.h`, named as in the spec's
error taxonomy, plus `UB` for branches that would dereference a dangling
pointer (undefined behaviour in the C++ source, unreachable from
well-formed lists). -/
inductive Err : Type where
  | EmptyContainer
  | InvalidIterator
  | InvalidDereference
  | InvalidAdvance
  | UB
deriving DecidableEq, Repr

/-- A pointer `Element*`: the id of a node in the store, or `none` for
`nullptr`. -/
abbrev Ptr : Type := Option Nat

/-- `struct Element`: one node of the ring, holding a value and the
pointer to the next node (`next_element`). -/
structure Element (α : Type) where
  value : α
  next_element : Ptr
deriving DecidableEq, Repr

/-- The allocation store of one list: the nodes it has allocated,
keyed by their id.  `new` adds an entry, `delete` removes it. -/
abbrev Heap (α : Type) := List (Nat × Element α)

/-- Reading the node at address `i` (pointer dereference on a raw id). -/
def hfind (hp : Heap α) (i : Nat) : Option (Element α) :=
  match hp with
  | [] => none
  | (k, e) :: rest => if k = i then some e else hfind rest i

/-- Dereference a pointer: `none` (nullptr) or a dangling id yields
`Option.none`. -/
def derefP (hp : Heap α) (p : Ptr) : Option (Element α) :=
  match p with
  | none => none
  | some i => hfind hp i

/-- In-place update `node->value = v` at address `i`. -/
def hsetVal (hp : Heap α) (i : Nat) (v : α) : Heap α :=
  match hp with
  | [] => []
  | (k, e) :: rest =>
      if k = i then (k, ⟨v, e.next_element⟩) :: hsetVal rest i v
      else (k, e) :: hsetVal rest i v

/-- In-place update `node->next_element = q` at address `i`. -/
def hsetNext (hp : Heap α) (i : Nat) (q : Ptr) : Heap α :=
  match hp with
  | [] => []
  | (k, e) :: rest =>
      if k = i then (k, ⟨e.value, q⟩) :: hsetNext rest i q
      else (k, e) :: hsetNext rest i q

/-- `delete` the node at address `i`. -/
def hdel (hp : Heap α) (i : Nat) : Heap α :=
  match hp with
  | [] => []
  | (k, e) :: rest =>
      if k = i then hdel rest i else (k, e) :: hdel rest i

/-- The list object: `head` pointer, cached `list_size`, the store of
its nodes, and the next unused allocation id (`new` always returns a
fresh address). -/
structure CircularLinkedList (α : Type) where
  heap : Heap α
  head : Ptr
  list_size : Nat
  fresh : Nat
deriving Repr

/-- The default constructor: `head(nullptr), list_size(0)`. -/
def emptyList : CircularLinkedList α := ⟨[], none, 0, 0⟩

/-- The iterator state: current element pointer, the `head_ptr` captured
at creation, and the `isEnd` flag.  (A `const_iterator` has the same
three fields and identical semantics, so one Lean type covers both.) -/
structure Iterator : Type where
  element : Ptr
  head_ptr : Ptr
  isEnd : Bool
deriving DecidableEq, Repr

namespace CircularLinkedList

/-- `begin()`: `iterator(head, head, false)`. -/
def begin (r : CircularLinkedList α) : Iterator :=
  ⟨r.head, r.head, false⟩

/-- `end()`: `iterator(head, head, true)`. -/
def endIter (r : CircularLinkedList α) : Iterator :=
  ⟨r.head, r.head, true⟩

/-- `iterator::operator==`: same element pointer and same `isEnd` flag
(`head_ptr` is not compared). -/
def iterEq (a b : Iterator) : Bool :=
  decide (a.element = b.element) && decide (a.isEnd = b.isEnd)

/-- `iterator::operator*`: throws if `!element || isEnd`, otherwise
reads `element->value`. -/
def derefIter (r : CircularLinkedList α) (it : Iterator) : Except Err α :=
  if it.element = none ∨ it.isEnd then .error .InvalidDereference
  else
    match derefP r.heap it.element with
    | none => .error .UB
    | some el => .ok el.value

/-- `iterator::operator++`: throws if `!element || isEnd`; otherwise
`element = element->next_element; if (element == head_ptr) isEnd = true`. -/
def advance (r : CircularLinkedList α) (it : Iterator) : Except Err Iterator :=
  if it.element = none ∨ it.isEnd then .error .InvalidAdvance
  else
    match derefP r.heap it.element with
    | none => .error .UB
    | some el =>
        .ok ⟨el.next_element, it.head_ptr, decide (el.next_element = it.head_ptr)⟩

/-- `advance` iterated `n` times. -/
def advanceN (r : CircularLinkedList α) (it : Iterator) : Nat → Except Err Iterator
  | 0 => .ok it
  | n + 1 =>
    match advance r it with
    | .error e => .error e
    | .ok it' => advanceN r it' n

/-- The canonical iteration loop
`for (auto it = begin(); it != end(); ++it) out.push_back(*it);`,
with fuel: `none` means the loop would not complete within `fuel`
dereference/advance steps (or would throw). -/
def iterCollect (r : CircularLinkedList α) (it : Iterator) : Nat → Option (List α)
  | 0 => if iterEq it (endIter r) then some [] else none
  | fuel + 1 =>
    if iterEq it (endIter r) then some []
    else
      match derefIter r it, advance r it with
      | .ok v, .ok it' => (iterCollect r it' fuel).map (v :: ·)
      | _, _ => none

/-- `push_front(value)`: if empty, allocate a self-linked node and make
it the head; otherwise allocate a node after `head` holding `value` and
old `head->next_element`, relink `head->next_element` to it, then
`std::swap(head->value, new_element->value)`. -/
def push_front (r : CircularLinkedList α) (value : α) : CircularLinkedList α :=
  match r.head with
  | none =>
      { heap := (r.fresh, ⟨value, some r.fresh⟩) :: r.heap
        head := some r.fresh
        list_size := r.list_size + 1
        fresh := r.fresh + 1 }
  | some h =>
      match hfind r.heap h with
      | none => r  -- dangling head: UB in C++, unreachable from well-formed lists
      | some hEl =>
          { heap := (r.fresh, ⟨hEl.value, hEl.next_element⟩) ::
              hsetVal (hsetNext r.heap h (some r.fresh)) h value
            head := r.head
            list_size := r.list_size + 1
            fresh := r.fresh + 1 }

/-- `pop_front()`: throws `EmptyContainer` on an empty list; on a
self-linked head deletes it and nulls `head`; otherwise copies the
second node's value into `head`, bypasses and deletes the second node.
The pair is (thrown error or unit, resulting list); every throwing path
leaves the list untouched. -/
def pop_front (r : CircularLinkedList α) : Except Err Unit × CircularLinkedList α :=
  match r.head with
  | none => (.error .EmptyContainer, r)
  | some h =>
      match hfind r.heap h with
      | none => (.error .UB, r)
      | some hEl =>
          if hEl.next_element = some h then
            (.ok (), { heap := hdel r.heap h
                       head := none
                       list_size := r.list_size - 1
                       fresh := r.fresh })
          else
            match hEl.next_element with
            | none => (.error .UB, r)
            | some j =>
                match hfind r.heap j with
                | none => (.error .UB, r)
                | some jEl =>
                    (.ok (), { heap := hdel
                                 (hsetNext (hsetVal r.heap h jEl.value) h
                                   jEl.next_element) j
                               head := r.head
                               list_size := r.list_size - 1
                               fresh := r.fresh })

/-- `front()`: throws `EmptyContainer` on an empty list, otherwise reads
`head->value`. -/
def front (r : CircularLinkedList α) : Except Err α :=
  match r.head with
  | none => .error .EmptyContainer
  | some h =>
      match hfind r.heap h with
      | none => .error .UB
      | some hEl => .ok hEl.value

/-- `empty()`: `head == nullptr`. -/
def emptyq (r : CircularLinkedList α) : Bool :=
  decide (r.head = none)

/-- `size()`: the cached `list_size` field. -/
def size (r : CircularLinkedList α) : Nat :=
  r.list_size

/-- `insert_after(pos, value)`: throws `InvalidIterator` if
`!pos.element || pos.isEnd`; otherwise allocates a node after
`pos.element` and returns `iterator(new_element, head, false)`. -/
def insert_after (r : CircularLinkedList α) (pos : Iterator) (value : α) :
    Except Err Iterator × CircularLinkedList α :=
  match pos.element with
  | none => (.error .InvalidIterator, r)
  | some p =>
      if pos.isEnd then (.error .InvalidIterator, r)
      else
        match hfind r.heap p with
        | none => (.error .UB, r)
        | some pEl =>
            (.ok ⟨some r.fresh, r.head, false⟩,
             { heap := (r.fresh, ⟨value, pEl.next_element⟩) ::
                 hsetNext r.heap p (some r.fresh)
               head := r.head
               list_size := r.list_size + 1
               fresh := r.fresh + 1 })

/-- `erase_after(pos)`: throws `InvalidIterator` if
`!pos.element || pos.element->next_element == head` (the `isEnd` flag is
NOT consulted); otherwise bypasses and deletes the node after
`pos.element` and returns `iterator(pos.element->next_element, head,
false)` — the pointer read after the relink, i.e. the deleted node's
successor. -/
def erase_after (r : CircularLinkedList α) (pos : Iterator) :
    Except Err Iterator × CircularLinkedList α :=
  match pos.element with
  | none => (.error .InvalidIterator, r)
  | some p =>
      match hfind r.heap p with
      | none => (.error .UB, r)
      | some pEl =>
          if pEl.next_element = r.head then (.error .InvalidIterator, r)
          else
            match pEl.next_element with
            | none => (.error .UB, r)
            | some j =>
                match hfind r.heap j with
                | none => (.error .UB, r)
                | some jEl =>
                    (.ok ⟨jEl.next_element, r.head, false⟩,
                     { heap := hdel (hsetNext r.heap p jEl.next_element) j
                       head := r.head
                       list_size := r.list_size - 1
                       fresh := r.fresh })

/-- `clear()`: frees every node of the ring and resets the list to the
empty state.  The C++ loop walks the cycle deleting node by node until
it returns to `head`; on a well-formed list the store holds exactly the
ring's nodes, so the store is empty afterwards. -/
def clear (r : CircularLinkedList α) : CircularLinkedList α :=
  { heap := [], head := none, list_size := 0, fresh := r.fresh }

/-- The inner loop of `operator==` (`j = 1 .. list_size-1`): starting
from one node pair, compare values and step both pointers, `count`
times. -/
def innerLoop [DecidableEq α] (ha hb : Heap α) : Ptr → Ptr → Nat → Bool
  | _, _, 0 => true
  | pa, pb, j + 1 =>
    match derefP ha pa, derefP hb pb with
    | some ea, some eb =>
        if ea.value = eb.value then
          innerLoop ha hb ea.next_element eb.next_element j
        else false
    | _, _ => false

/-- The outer loop of `operator==` (`i = 0 .. list_size-1`):
`this_current` stays on this list's head; `other_current` steps through
the other ring; on a head-value match the inner loop checks the
remaining `list_size - 1` pairs. -/
def outerLoop [DecidableEq α] (ha hb : Heap α) (sz : Nat) (pa : Ptr) :
    Ptr → Nat → Bool
  | _, 0 => false
  | pb, i + 1 =>
    match derefP ha pa, derefP hb pb with
    | some ea, some eb =>
        if ea.value = eb.value then
          if innerLoop ha hb ea.next_element eb.next_element (sz - 1) then true
          else outerLoop ha hb sz pa eb.next_element i
        else outerLoop ha hb sz pa eb.next_element i
    | _, _ => false

/-- `operator==`: size check, empty cases, then the rotation search. -/
def ringEq [DecidableEq α] (ra rb : CircularLinkedList α) : Bool :=
  if ra.list_size ≠ rb.list_size then false
  else if ra.head = none ∧ rb.head = none then true
  else if ra.head = none ∨ rb.head = none then false
  else outerLoop ra.heap rb.heap ra.list_size ra.head rb.head ra.list_size

end CircularLinkedList

open CircularLinkedList

/-- Building a list by a sequence of `push_front` calls, first element
of `vs` pushed first. -/
def pushAll (vs : List α) : CircularLinkedList α :=
  vs.foldl push_front emptyList

/-- Read `n` values by repeated pointer chasing from `p` (`none` if a
dereference fails on the way). -/
def readN (hp : Heap α) : Ptr → Nat → Option (List α)
  | _, 0 => some []
  | p, n + 1 =>
    match derefP hp p with
    | none => none
    | some el => (readN hp el.next_element n).map (el.value :: ·)

/-- The pointer reached after `n` pointer-chasing steps from `p`. -/
def ptrN (hp : Heap α) : Ptr → Nat → Option Ptr
  | p, 0 => some p
  | p, n + 1 =>
    match derefP hp p with
    | none => none
    | some el => ptrN hp el.next_element n

/-- The key of the first entry of a node list, or `stop` when empty
(used as "the address the last node links to"). -/
def nextKey (stop : Nat) : List (Nat × α) → Nat
  | [] => stop
  | (j, _) :: _ => j

/-- The address of the first node of `cyc`, as a pointer (`none` for the
empty list, matching a null `head`). -/
def headKey : List (Nat × α) → Ptr
  | [] => none
  | (i, _) :: _ => some i

/-- `chain hp stop cyc`: the nodes listed in `cyc` (address/value pairs)
sit in the store `hp` linked one to the next in list order, the last one
linking to the address `stop`. -/
def chain (hp : Heap α) (stop : Nat) : List (Nat × α) → Prop
  | [] => True
  | (i, v) :: rest =>
      hfind hp i = some ⟨v, some (nextKey stop rest)⟩ ∧ chain hp stop rest

/-- Well-formedness of a list object: `cyc` enumerates the ring's nodes
from `head` in link order.  The store holds exactly those nodes (up to
permutation of allocation order), their addresses are distinct and below
the allocation counter, the cached size is the node count, `head` is the
first listed node (or null for the empty ring), and the links close the
cycle back to `head`. -/
structure IsRing (r : CircularLinkedList α) (cyc : List (Nat × α)) : Prop where
  size_eq : r.list_size = cyc.length
  nodup : (cyc.map Prod.fst).Nodup
  head_eq : r.head = headKey cyc
  keys_perm : (r.heap.map Prod.fst).Perm (cyc.map Prod.fst)
  fresh_big : ∀ i ∈ cyc.map Prod.fst, i < r.fresh
  chain_ok : chain r.heap (nextKey 0 cyc) cyc

/-! ### Store lemmas -/

theorem hfind_cons (k : Nat) (e : Element α) (hp : Heap α) (j : Nat) :
    hfind ((k, e) :: hp) j = if k = j then some e else hfind hp j := rfl

theorem hfind_hsetVal (hp : Heap α) (i : Nat) (v : α) (j : Nat) :
    hfind (hsetVal hp i v) j =
      if j = i then (hfind hp i).map (fun e => ⟨v, e.next_element⟩) else hfind hp j := by
  induction hp with
  | nil => by_cases hj : j = i <;> simp [hsetVal, hfind, hj]
  | cons e rest ih =>
      obtain ⟨k, el⟩ := e
      by_cases hk : k = i <;> by_cases hj : k = j
      · have hji : j = i := hk ▸ hj.symm
        simp [hsetVal, hfind, hk, hj, hji]
      · have hji : ¬ j = i := fun h => hj (hk.trans h.symm)
        have hij : ¬ i = j := fun h => hji h.symm
        simp [hsetVal, hfind, hk, hj, hji, hij, ih]
      · have hji : ¬ j = i := fun h => hk (hj.trans h)
        simp [hsetVal, hfind, hk, hj, hji]
      · simp [hsetVal, hfind, hk, hj, ih]

theorem hfind_hsetNext (hp : Heap α) (i : Nat) (q : Ptr) (j : Nat) :
    hfind (hsetNext hp i q) j =
      if j = i then (hfind hp i).map (fun e => ⟨e.value, q⟩) else hfind hp j := by
  induction hp with
  | nil => by_cases hj : j = i <;> simp [hsetNext, hfind, hj]
  | cons e rest ih =>
      obtain ⟨k, el⟩ := e
      by_cases hk : k = i <;> by_cases hj : k = j
      · have hji : j = i := hk ▸ hj.symm
        simp [hsetNext, hfind, hk, hj, hji]
      · have hji : ¬ j = i := fun h => hj (hk.trans h.symm)
        have hij : ¬ i = j := fun h => hji h.symm
        simp [hsetNext, hfind, hk, hj, hji, hij, ih]
      · have hji : ¬ j = i := fun h => hk (hj.trans h)
        simp [hsetNext, hfind, hk, hj, hji]
      · simp [hsetNext, hfind, hk, hj, ih]

theorem hfind_hdel (hp : Heap α) (i : Nat) (j : Nat) :
    hfind (hdel hp i) j = if j = i then none else hfind hp j := by
  induction hp with
  | nil => by_cases hj : j = i <;> simp [hdel, hfind, hj]
  | cons e rest ih =>
      obtain ⟨k, el⟩ := e
      by_cases hk : k = i <;> by_cases hj : k = j
      · have hji : j = i := hk ▸ hj.symm
        rw [hji] at ih
        have ih' : hfind (hdel rest i) i = none := by simpa using ih
        simp [hdel, hfind, hk, hj, hji, ih']
      · have hji : ¬ j = i := fun h => hj (hk.trans h.symm)
        have hij : ¬ i = j := fun h => hji h.symm
        simp [hdel, hfind, hk, hj, hji, hij, ih]
      · have hji : ¬ j = i := fun h => hk (hj.trans h)
        simp [hdel, hfind, hk, hj, hji]
      · simp [hdel, hfind, hk, hj, ih]

theorem keys_hsetVal (hp : Heap α) (i : Nat) (v : α) :
    (hsetVal hp i v).map Prod.fst = hp.map Prod.fst := by
  induction hp with
  | nil => rfl
  | cons e rest ih =>
      obtain ⟨k, el⟩ := e
      by_cases hk : k = i <;> simp [hsetVal, hk, ih]

theorem keys_hsetNext (hp : Heap α) (i : Nat) (q : Ptr) :
    (hsetNext hp i q).map Prod.fst = hp.map Prod.fst := by
  induction hp with
  | nil => rfl
  | cons e rest ih =>
      obtain ⟨k, el⟩ := e
      by_cases hk : k = i <;> simp [hsetNext, hk, ih]

theorem keys_hdel (hp : Heap α) (i : Nat) :
    (hdel hp i).map Prod.fst = (hp.map Prod.fst).filter (fun k => decide (k ≠ i)) := by
  induction hp with
  | nil => rfl
  | cons e rest ih =>
      obtain ⟨k, el⟩ := e
      by_cases hk : k = i <;> simp [hdel, hk, ih, List.filter_cons]

theorem hfind_mem_keys {hp : Heap α} {i : Nat} (h : i ∈ hp.map Prod.fst) :
    ∃ e, hfind hp i = some e := by
  induction hp with
  | nil => simp at h
  | cons e rest ih =>
      obtain ⟨k, el⟩ := e
      by_cases hk : k = i
      · exact ⟨el, by simp [hfind, hk]⟩
      · have h' : i ∈ rest.map Prod.fst := by
          rcases (by simpa using h : i = k ∨ ∃ x, (i, x) ∈ rest) with h | h
          · exact absurd h.symm hk
          · obtain ⟨x, hx⟩ := h
            exact List.mem_map.mpr ⟨(i, x), hx, rfl⟩
        obtain ⟨e', he'⟩ := ih h'
        exact ⟨e', by simpa [hfind, hk] using he'⟩

theorem mem_keys_of_hfind {hp : Heap α} {i : Nat} {e : Element α}
    (h : hfind hp i = some e) : i ∈ hp.map Prod.fst := by
  induction hp with
  | nil => simp [hfind] at h
  | cons f rest ih =>
      obtain ⟨k, el⟩ := f
      by_cases hk : k = i
      · simp [hk]
      · simp [hfind, hk] at h
        simp [ih h]

/-! ### Chain lemmas -/

theorem nextKey_append (s : Nat) (xs ys : List (Nat × α)) :
    nextKey s (xs ++ ys) = nextKey (nextKey s ys) xs := by
  cases xs with
  | nil => rfl
  | cons e rest => cases e; rfl

theorem nextKey_cons (s : Nat) (i : Nat) (v : α) (c : List (Nat × α)) :
    nextKey s ((i, v) :: c) = i := rfl

theorem chain_append (hp : Heap α) (s : Nat) (xs ys : List (Nat × α)) :
    chain hp s (xs ++ ys) ↔ chain hp (nextKey s ys) xs ∧ chain hp s ys := by
  induction xs with
  | nil => simp [chain]
  | cons e rest ih =>
      obtain ⟨i, v⟩ := e
      simp only [List.cons_append, chain, ih, List.append_eq, nextKey_append]
      tauto

theorem chain_congr {hp hp' : Heap α} {s : Nat} {c : List (Nat × α)}
    (hsame : ∀ i ∈ c.map Prod.fst, hfind hp' i = hfind hp i)
    (hc : chain hp s c) : chain hp' s c := by
  induction c with
  | nil => trivial
  | cons e rest ih =>
      obtain ⟨i, v⟩ := e
      obtain ⟨h1, h2⟩ := hc
      refine ⟨?_, ih (fun j hj => hsame j (by simp [hj])) h2⟩
      rw [hsame i (by simp)]
      exact h1

theorem chain_nodeAt {hp : Heap α} {s : Nat} {c : List (Nat × α)}
    (hc : chain hp s c) :
    ∀ k (hk : k < c.length),
      hfind hp (c.get ⟨k, hk⟩).1 =
        some ⟨(c.get ⟨k, hk⟩).2,
              some (if h : k + 1 < c.length then (c.get ⟨k + 1, h⟩).1 else s)⟩ := by
  induction c with
  | nil => intro k hk; simp at hk
  | cons e rest ih =>
      obtain ⟨i, v⟩ := e
      obtain ⟨h1, h2⟩ := hc
      intro k hk
      cases k with
      | zero =>
          simp only [List.get]
          by_cases hr : 1 < ((i, v) :: rest).length
          · rw [dif_pos hr]
            cases rest with
            | nil => simp at hr
            | cons f rest2 => simpa [nextKey] using h1
          · rw [dif_neg hr]
            cases rest with
            | nil => simpa [nextKey] using h1
            | cons f rest2 => simp at hr
      | succ k =>
          have hk' : k < rest.length := by simpa using hk
          have := ih h2 k hk'
          by_cases h : k + 1 < rest.length
          · rw [dif_pos h] at this
            have hco : k + 1 + 1 < ((i, v) :: rest).length := by simpa using h
            rw [dif_pos hco]
            simpa using this
          · rw [dif_neg h] at this
            have hco : ¬ (k + 1 + 1 < ((i, v) :: rest).length) := by simpa using h
            rw [dif_neg hco]
            simpa using this

theorem readN_succ (hp : Heap α) (p : Ptr) (n : Nat) :
    readN hp p (n + 1) =
      match derefP hp p with
      | none => none
      | some el => (readN hp el.next_element n).map (el.value :: ·) := rfl

theorem ptrN_succ (hp : Heap α) (p : Ptr) (n : Nat) :
    ptrN hp p (n + 1) =
      match derefP hp p with
      | none => none
      | some el => ptrN hp el.next_element n := rfl

theorem chain_readN {hp : Heap α} {s : Nat} {c : List (Nat × α)}
    (hc : chain hp s c) :
    readN hp (some (nextKey s c)) c.length = some (c.map Prod.snd) := by
  induction c with
  | nil => rfl
  | cons e rest ih =>
      obtain ⟨i, v⟩ := e
      obtain ⟨h1, h2⟩ := hc
      have hd : derefP hp (some i) = some ⟨v, some (nextKey s rest)⟩ := h1
      rw [nextKey_cons, List.length_cons, readN_succ, hd]
      dsimp only
      rw [ih h2]
      rfl

theorem chain_ptrN {hp : Heap α} {s : Nat} {c : List (Nat × α)}
    (hc : chain hp s c) :
    ptrN hp (some (nextKey s c)) c.length = some (some s) := by
  induction c with
  | nil => rfl
  | cons e rest ih =>
      obtain ⟨i, v⟩ := e
      obtain ⟨h1, h2⟩ := hc
      have hd : derefP hp (some i) = some ⟨v, some (nextKey s rest)⟩ := h1
      rw [nextKey_cons, List.length_cons, ptrN_succ, hd]
      dsimp only
      exact ih h2

theorem readN_add {hp : Heap α} {p q : Ptr} {a b : Nat} {L1 L2 : List α}
    (h1 : readN hp p a = some L1) (h2 : ptrN hp p a = some q)
    (h3 : readN hp q b = some L2) :
    readN hp p (a + b) = some (L1 ++ L2) := by
  induction a generalizing p L1 with
  | zero =>
      simp [readN] at h1
      simp [ptrN] at h2
      subst h1; subst h2
      simpa using h3
  | succ a ih =>
      have hab : a + 1 + b = (a + b) + 1 := by omega
      rw [readN_succ] at h1
      rw [ptrN_succ] at h2
      rw [hab, readN_succ]
      cases hde : derefP hp p with
      | none =>
          rw [hde] at h1
          dsimp only at h1
          simp at h1
      | some el =>
          rw [hde] at h1 h2
          dsimp only at h1 h2 ⊢
          cases hr : readN hp el.next_element a with
          | none => rw [hr] at h1; simp at h1
          | some L1' =>
              rw [hr] at h1
              simp at h1
              rw [ih hr h2]
              simp [← h1]

/-! ### Well-formed ring lemmas -/

theorem nextKey_eq_get0 (s : Nat) (c : List (Nat × α)) (hc : 0 < c.length) :
    nextKey s c = (c.get ⟨0, hc⟩).1 := by
  cases c with
  | nil => simp at hc
  | cons e rest => cases e; rfl

theorem headKey_eq_get0 (c : List (Nat × α)) (hc : 0 < c.length) :
    headKey c = some ((c.get ⟨0, hc⟩).1) := by
  cases c with
  | nil => simp at hc
  | cons e rest => cases e; rfl

theorem isRing_empty (α : Type) : IsRing (emptyList : CircularLinkedList α) [] := by
  refine ⟨rfl, by simp, rfl, by simp [emptyList], by simp, trivial⟩

theorem IsRing.head_none_iff {r : CircularLinkedList α} {cyc : List (Nat × α)}
    (hr : IsRing r cyc) : r.head = none ↔ cyc = [] := by
  rw [hr.head_eq]
  cases cyc with
  | nil => simp [headKey]
  | cons e rest => cases e; simp [headKey]

theorem IsRing.keyAt_inj {r : CircularLinkedList α} {cyc : List (Nat × α)}
    (hr : IsRing r cyc) {k l : Nat} (hk : k < cyc.length) (hl : l < cyc.length)
    (h : (cyc.get ⟨k, hk⟩).1 = (cyc.get ⟨l, hl⟩).1) : k = l := by
  have hmk : k < (cyc.map Prod.fst).length := by simpa using hk
  have hml : l < (cyc.map Prod.fst).length := by simpa using hl
  have h' : (cyc.map Prod.fst).get ⟨k, hmk⟩ = (cyc.map Prod.fst).get ⟨l, hml⟩ := by
    simpa [List.get_map] using h
  have := (hr.nodup.get_inj_iff).mp h'
  exact congrArg Fin.val this

theorem IsRing.nodeAt {r : CircularLinkedList α} {cyc : List (Nat × α)}
    (hr : IsRing r cyc) (k : Nat) (hk : k < cyc.length) :
    hfind r.heap (cyc.get ⟨k, hk⟩).1 =
      some ⟨(cyc.get ⟨k, hk⟩).2,
            some ((cyc.get ⟨(k + 1) % cyc.length,
                   Nat.mod_lt _ (by omega)⟩).1)⟩ := by
  have h := chain_nodeAt hr.chain_ok k hk
  by_cases h1 : k + 1 < cyc.length
  · rw [dif_pos h1] at h
    have hidx : (⟨(k + 1) % cyc.length, Nat.mod_lt _ (by omega)⟩ : Fin cyc.length) =
        ⟨k + 1, h1⟩ := Fin.ext (by simp [Nat.mod_eq_of_lt h1])
    rw [hidx]
    exact h
  · rw [dif_neg h1] at h
    have hk1 : k + 1 = cyc.length := by omega
    have hidx : (⟨(k + 1) % cyc.length, Nat.mod_lt _ (by omega)⟩ : Fin cyc.length) =
        ⟨0, by omega⟩ := Fin.ext (by simp [hk1])
    rw [hidx, ← nextKey_eq_get0 0 cyc (by omega)]
    exact h

theorem IsRing.headPtr {r : CircularLinkedList α} {cyc : List (Nat × α)}
    (hr : IsRing r cyc) (hne : 0 < cyc.length) :
    r.head = some ((cyc.get ⟨0, hne⟩).1) := by
  rw [hr.head_eq]
  exact headKey_eq_get0 cyc hne

/-- Reading `cyc.length` values from the node at cycle position `s`
yields the value sequence rotated by `s`. -/
theorem IsRing.readN_rot {r : CircularLinkedList α} {cyc : List (Nat × α)}
    (hr : IsRing r cyc) (s : Nat) (hs : s < cyc.length) :
    readN r.heap (some ((cyc.get ⟨s, hs⟩).1)) cyc.length =
      some ((cyc.map Prod.snd).rotate s) := by
  have hsplit : cyc.take s ++ cyc.drop s = cyc := List.take_append_drop s cyc
  have hch : chain r.heap (nextKey 0 cyc) (cyc.take s ++ cyc.drop s) := by
    rw [hsplit]; exact hr.chain_ok
  rw [chain_append] at hch
  obtain ⟨hc1, hc2⟩ := hch
  have hlen2 : (cyc.drop s).length = cyc.length - s := by simp
  have hlen1 : (cyc.take s).length = s := by simp [Nat.le_of_lt hs]
  -- the first node of the dropped part is the node at position s
  have hget : nextKey (nextKey 0 cyc) (cyc.drop s) = (cyc.get ⟨s, hs⟩).1 := by
    have hd : 0 < (cyc.drop s).length := by omega
    rw [nextKey_eq_get0 _ _ hd]
    congr 1
    rw [List.get_eq_getElem, List.get_eq_getElem, List.getElem_drop]
    simp
  -- read the dropped part: ends back at the head key
  have h2read : readN r.heap (some ((cyc.get ⟨s, hs⟩).1)) (cyc.drop s).length =
      some ((cyc.drop s).map Prod.snd) := by
    have := chain_readN hc2
    rwa [hget] at this
  have h2ptr : ptrN r.heap (some ((cyc.get ⟨s, hs⟩).1)) (cyc.drop s).length =
      some (some (nextKey 0 cyc)) := by
    have := chain_ptrN hc2
    rwa [hget] at this
  -- read the taken part from the head key
  have h1read : readN r.heap (some (nextKey 0 cyc)) (cyc.take s).length =
      some ((cyc.take s).map Prod.snd) := by
    have hnk : nextKey (nextKey (nextKey 0 cyc) (cyc.drop s)) (cyc.take s) =
        nextKey 0 cyc := by
      rw [← nextKey_append, hsplit,
        nextKey_eq_get0 _ _ (by omega : 0 < cyc.length),
        nextKey_eq_get0 _ _ (by omega : 0 < cyc.length)]
    have := chain_readN hc1
    rwa [hnk] at this
  have htot := readN_add h2read h2ptr h1read
  have hlen : (cyc.drop s).length + (cyc.take s).length = cyc.length := by omega
  rw [hlen] at htot
  rw [htot]
  congr 1
  rw [List.rotate_eq_drop_append_take (by simpa using Nat.le_of_lt hs)]
  simp

/-- Reading `cyc.length` values from `head` yields the value sequence. -/
theorem IsRing.readN_head {r : CircularLinkedList α} {cyc : List (Nat × α)}
    (hr : IsRing r cyc) (hne : 0 < cyc.length) :
    readN r.heap r.head cyc.length = some (cyc.map Prod.snd) := by
  rw [hr.headPtr hne]
  have := hr.readN_rot 0 hne
  simpa using this

/-! ### Effect of the operations on well-formed rings -/

theorem IsRing.not_fresh_mem {r : CircularLinkedList α} {cyc : List (Nat × α)}
    (hr : IsRing r cyc) : r.fresh ∉ cyc.map Prod.fst := fun h =>
  absurd (hr.fresh_big _ h) (by omega)

theorem push_front_isRing_nil {r : CircularLinkedList α}
    (hr : IsRing r ([] : List (Nat × α))) (v : α) :
    IsRing (push_front r v) [(r.fresh, v)] := by
  have hhead : r.head = none := hr.head_eq
  have hkeys : r.heap.map Prod.fst = [] := hr.keys_perm.eq_nil
  have heq : push_front r v =
      { heap := (r.fresh, ⟨v, some r.fresh⟩) :: r.heap
        head := some r.fresh
        list_size := r.list_size + 1
        fresh := r.fresh + 1 } := by
    simp [push_front, hhead]
  rw [heq]
  refine ⟨?_, by simp, rfl, ?_, by simp, ?_, trivial⟩
  · have := hr.size_eq
    simpa using this
  · simpa [hkeys] using List.Perm.refl _
  · show hfind ((r.fresh, ⟨v, some r.fresh⟩) :: r.heap) r.fresh =
      some ⟨v, some (nextKey r.fresh [])⟩
    simp [hfind, nextKey]

theorem push_front_isRing_cons {r : CircularLinkedList α} {h0 : Nat} {w0 : α}
    {rest : List (Nat × α)} (hr : IsRing r ((h0, w0) :: rest)) (v : α) :
    IsRing (push_front r v) ((h0, v) :: (r.fresh, w0) :: rest) := by
  have hhead : r.head = some h0 := hr.head_eq
  have hch := hr.chain_ok
  obtain ⟨hf0, hrest⟩ := hch
  rw [nextKey_cons] at hf0
  -- the keys of the ring, and freshness facts
  have hh0f : h0 ≠ r.fresh := by
    have := hr.fresh_big h0 (by simp)
    omega
  have hrestf : ∀ i ∈ rest.map Prod.fst, i ≠ r.fresh := by
    intro i hi
    have := hr.fresh_big i (by simp [hi])
    omega
  have hh0rest : h0 ∉ rest.map Prod.fst := (List.nodup_cons.mp hr.nodup).1
  have heq : push_front r v =
      { heap := (r.fresh, ⟨w0, some (nextKey h0 rest)⟩) ::
          hsetVal (hsetNext r.heap h0 (some r.fresh)) h0 v
        head := r.head
        list_size := r.list_size + 1
        fresh := r.fresh + 1 } := by
    simp [push_front, hhead, hf0]
  rw [heq]
  constructor
  · simpa using hr.size_eq
  · have hn := List.nodup_cons.mp hr.nodup
    refine List.nodup_cons.mpr ⟨?_, List.nodup_cons.mpr ⟨?_, hn.2⟩⟩
    · intro hmem
      rcases List.mem_cons.mp hmem with h | h
      · exact hh0f h
      · exact hh0rest h
    · exact fun hmem => hrestf _ hmem rfl
  · exact hhead
  · show (((r.fresh, (⟨w0, some (nextKey h0 rest)⟩ : Element α)) ::
        hsetVal (hsetNext r.heap h0 (some r.fresh)) h0 v).map Prod.fst).Perm
      (((h0, v) :: (r.fresh, w0) :: rest).map Prod.fst)
    simp only [List.map_cons, keys_hsetVal, keys_hsetNext]
    have h1 : (r.heap.map Prod.fst).Perm (h0 :: rest.map Prod.fst) := by
      simpa using hr.keys_perm
    exact (h1.cons r.fresh).trans (List.Perm.swap h0 r.fresh _)
  · intro i hi
    show i < r.fresh + 1
    simp at hi
    rcases hi with hi | hi | hi
    · have := hr.fresh_big h0 (by simp)
      omega
    · omega
    · obtain ⟨x, hx⟩ := hi
      have : i ∈ ((h0, w0) :: rest).map Prod.fst :=
        List.mem_map.mpr ⟨(i, x), by simp [hx], rfl⟩
      have := hr.fresh_big i this
      omega
  · -- the chain of the new cycle
    have hstop : nextKey 0 ((h0, v) :: (r.fresh, w0) :: rest) = h0 := rfl
    rw [hstop]
    have hfind_pres : ∀ i ∈ rest.map Prod.fst,
        hfind ((r.fresh, (⟨w0, some (nextKey h0 rest)⟩ : Element α)) ::
          hsetVal (hsetNext r.heap h0 (some r.fresh)) h0 v) i = hfind r.heap i := by
      intro i hi
      have hif : r.fresh ≠ i := fun h => (hrestf i hi h.symm).elim
      have hih0 : i ≠ h0 := fun h => hh0rest (h ▸ hi)
      rw [hfind_cons, if_neg hif, hfind_hsetVal, if_neg hih0, hfind_hsetNext,
        if_neg hih0]
    refine ⟨?_, ?_, ?_⟩
    · show hfind _ h0 = some ⟨v, some (nextKey h0 ((r.fresh, w0) :: rest))⟩
      rw [nextKey_cons, hfind_cons, if_neg (fun h => hh0f h.symm), hfind_hsetVal,
        if_pos rfl, hfind_hsetNext, if_pos rfl, hf0]
      rfl
    · show hfind _ r.fresh = some ⟨w0, some (nextKey h0 rest)⟩
      rw [hfind_cons, if_pos rfl]
    · exact chain_congr hfind_pres hrest

/-- One `push_front` on any well-formed ring: the ring stays well
formed and its value sequence gains `v` at the front. -/
theorem push_front_isRing {r : CircularLinkedList α} {cyc : List (Nat × α)}
    (hr : IsRing r cyc) (v : α) :
    ∃ cyc', IsRing (push_front r v) cyc' ∧
      cyc'.map Prod.snd = v :: cyc.map Prod.snd := by
  cases cyc with
  | nil => exact ⟨[(r.fresh, v)], push_front_isRing_nil hr v, by simp⟩
  | cons e rest =>
      obtain ⟨h0, w0⟩ := e
      exact ⟨(h0, v) :: (r.fresh, w0) :: rest, push_front_isRing_cons hr v, by simp⟩

theorem filter_ne_eq_self {l : List Nat} {a : Nat} (h : a ∉ l) :
    l.filter (fun x => decide (x ≠ a)) = l := by
  induction l with
  | nil => rfl
  | cons x xs ih =>
      have hxa : x ≠ a := fun hx => h (hx ▸ List.mem_cons_self x xs)
      have hxs : a ∉ xs := fun hx => h (List.mem_cons_of_mem _ hx)
      rw [List.filter_cons, if_pos (by simpa using hxa), ih hxs]

theorem pop_front_empty {r : CircularLinkedList α} (h : r.head = none) :
    pop_front r = (.error .EmptyContainer, r) := by
  simp [pop_front, h]

theorem pop_front_isRing_single {r : CircularLinkedList α} {h0 : Nat} {w0 : α}
    (hr : IsRing r [(h0, w0)]) :
    pop_front r = (.ok (), ⟨[], none, r.list_size - 1, r.fresh⟩) ∧
    IsRing (pop_front r).2 ([] : List (Nat × α)) := by
  have hhead : r.head = some h0 := hr.head_eq
  have hf0 : hfind r.heap h0 = some ⟨w0, some h0⟩ := by
    have := hr.chain_ok
    exact this.1
  have hheap : ∃ e, r.heap = [(h0, e)] := by
    have hk : r.heap.map Prod.fst = [h0] :=
      List.perm_singleton.mp (by simpa using hr.keys_perm)
    cases hhp : r.heap with
    | nil => rw [hhp] at hk; simp at hk
    | cons e tl =>
        rw [hhp] at hk
        obtain ⟨k, el⟩ := e
        simp at hk
        obtain ⟨hk1, hk2⟩ := hk
        exact ⟨el, by rw [hk1, hk2]⟩
  obtain ⟨e, he⟩ := hheap
  have hdel_nil : hdel r.heap h0 = [] := by rw [he]; simp [hdel]
  have heq : pop_front r = (.ok (), ⟨[], none, r.list_size - 1, r.fresh⟩) := by
    unfold pop_front
    rw [hhead]
    dsimp only
    rw [hf0]
    dsimp only
    rw [if_pos rfl, hdel_nil]
  refine ⟨heq, ?_⟩
  rw [heq]
  have hsz : r.list_size = 1 := by simpa using hr.size_eq
  exact ⟨by simp [hsz], by simp, rfl, by simp, by simp, trivial⟩

theorem pop_front_isRing_cons {r : CircularLinkedList α} {h0 j1 : Nat} {w0 w1 : α}
    {rest : List (Nat × α)} (hr : IsRing r ((h0, w0) :: (j1, w1) :: rest)) :
    pop_front r = (.ok (),
      { heap := hdel (hsetNext (hsetVal r.heap h0 w1) h0 (some (nextKey h0 rest))) j1
        head := r.head
        list_size := r.list_size - 1
        fresh := r.fresh }) ∧
    IsRing (pop_front r).2 ((h0, w1) :: rest) := by
  have hhead : r.head = some h0 := hr.head_eq
  obtain ⟨hf0, hf1, hrest⟩ := hr.chain_ok
  rw [nextKey_cons] at hf0
  -- distinctness of the addresses involved
  have hnd := hr.nodup
  have hh0j1 : h0 ≠ j1 := by
    intro h
    have := (List.nodup_cons.mp hnd).1
    exact this (h ▸ List.mem_cons_self _ _)
  have hh0rest : h0 ∉ rest.map Prod.fst := by
    have := (List.nodup_cons.mp hnd).1
    intro hm
    exact this (List.mem_cons_of_mem _ hm)
  have hj1rest : j1 ∉ rest.map Prod.fst :=
    (List.nodup_cons.mp (List.nodup_cons.mp hnd).2).1
  have heq : pop_front r = (.ok (),
      { heap := hdel (hsetNext (hsetVal r.heap h0 w1) h0 (some (nextKey h0 rest))) j1
        head := r.head
        list_size := r.list_size - 1
        fresh := r.fresh }) := by
    unfold pop_front
    rw [hhead]
    dsimp only
    rw [hf0]
    dsimp only
    have hne : ¬ ((some j1 : Ptr) = some h0) := by
      simp only [Option.some.injEq]
      exact fun h => hh0j1 h.symm
    rw [if_neg hne, hf1]
    dsimp only
    rfl
  refine ⟨heq, ?_⟩
  rw [heq]
  have hfind_new : ∀ i : Nat, i ≠ j1 → i ≠ h0 →
      hfind (hdel (hsetNext (hsetVal r.heap h0 w1) h0 (some (nextKey h0 rest))) j1) i =
        hfind r.heap i := by
    intro i hij hih
    rw [hfind_hdel, if_neg hij, hfind_hsetNext, if_neg hih, hfind_hsetVal, if_neg hih]
  have hfind_h0 :
      hfind (hdel (hsetNext (hsetVal r.heap h0 w1) h0 (some (nextKey h0 rest))) j1) h0 =
        some ⟨w1, some (nextKey h0 rest)⟩ := by
    rw [hfind_hdel, if_neg hh0j1, hfind_hsetNext, if_pos rfl, hfind_hsetVal,
      if_pos rfl, hf0]
    rfl
  constructor
  · simpa using hr.size_eq
  · refine List.nodup_cons.mpr ⟨by simpa using hh0rest, ?_⟩
    exact (List.nodup_cons.mp (List.nodup_cons.mp hnd).2).2
  · exact hhead
  · show ((hdel (hsetNext (hsetVal r.heap h0 w1) h0 (some (nextKey h0 rest))) j1).map
        Prod.fst).Perm (((h0, w1) :: rest).map Prod.fst)
    rw [keys_hdel, keys_hsetNext, keys_hsetVal]
    have h1 : ((r.heap.map Prod.fst).filter (fun k => decide (k ≠ j1))).Perm
        ((h0 :: j1 :: rest.map Prod.fst).filter (fun k => decide (k ≠ j1))) :=
      List.Perm.filter _ (by simpa using hr.keys_perm)
    have h2 : (h0 :: j1 :: rest.map Prod.fst).filter (fun k => decide (k ≠ j1)) =
        h0 :: rest.map Prod.fst := by
      rw [List.filter_cons, List.filter_cons]
      rw [if_pos (by simpa using hh0j1), if_neg (by simp)]
      rw [filter_ne_eq_self hj1rest]
    rw [h2] at h1
    simpa using h1
  · intro i hi
    have : i ∈ ((h0, w0) :: (j1, w1) :: rest).map Prod.fst := by
      simp at hi ⊢
      tauto
    exact hr.fresh_big i this
  · refine ⟨?_, ?_⟩
    · show hfind _ h0 = some ⟨w1, some (nextKey (nextKey 0 ((h0, w1) :: rest)) rest)⟩
      rw [hfind_h0]
      rfl
    · refine chain_congr (fun i hi => ?_) hrest
      have hij : i ≠ j1 := fun h => hj1rest (h ▸ hi)
      have hih : i ≠ h0 := fun h => hh0rest (h ▸ hi)
      exact hfind_new i hij hih

theorem nextKey_surgery (xs : List (Nat × α)) (p : Nat) (w w' : α)
    (ys ys' : List (Nat × α)) :
    nextKey 0 (xs ++ (p, w) :: ys) = nextKey 0 (xs ++ (p, w') :: ys') := by
  rw [nextKey_append, nextKey_append, nextKey_cons, nextKey_cons]

theorem headKey_surgery (xs : List (Nat × α)) (p : Nat) (w w' : α)
    (ys ys' : List (Nat × α)) :
    headKey (xs ++ (p, w) :: ys) = headKey (xs ++ (p, w') :: ys') := by
  cases xs with
  | nil => rfl
  | cons e tl => cases e; rfl

theorem insert_after_err_none {r : CircularLinkedList α} {pos : Iterator}
    (h : pos.element = none) (v : α) :
    insert_after r pos v = (.error .InvalidIterator, r) := by
  unfold insert_after
  rw [h]

theorem insert_after_err_end {r : CircularLinkedList α} {pos : Iterator} {p : Nat}
    (hp : pos.element = some p) (h : pos.isEnd = true) (v : α) :
    insert_after r pos v = (.error .InvalidIterator, r) := by
  unfold insert_after
  rw [hp]
  dsimp only
  rw [h]
  rfl

theorem insert_after_spec {r : CircularLinkedList α} {cyc xs ys : List (Nat × α)}
    {p : Nat} {w : α} (hr : IsRing r cyc) (hcyc : cyc = xs ++ (p, w) :: ys)
    {pos : Iterator} (hpos : pos.element = some p) (hend : pos.isEnd = false)
    (v : α) :
    insert_after r pos v =
      (.ok ⟨some r.fresh, r.head, false⟩,
       ⟨(r.fresh, ⟨v, some (nextKey (nextKey 0 cyc) ys)⟩) ::
          hsetNext r.heap p (some r.fresh),
        r.head, r.list_size + 1, r.fresh + 1⟩) ∧
    IsRing (insert_after r pos v).2 (xs ++ (p, w) :: (r.fresh, v) :: ys) := by
  subst hcyc
  have hch := hr.chain_ok
  rw [chain_append] at hch
  obtain ⟨hxs, hmid⟩ := hch
  obtain ⟨hfp, hys⟩ := hmid
  rw [nextKey_cons] at hxs
  -- key distinctness facts
  have hnd := hr.nodup
  rw [List.map_append, List.map_cons] at hnd
  have hpxs : p ∉ xs.map Prod.fst := by
    intro hmem
    exact (List.disjoint_of_nodup_append hnd) hmem (List.mem_cons_self _ _)
  have hpys : p ∉ ys.map Prod.fst :=
    (List.nodup_cons.mp (hnd.of_append_right)).1
  have hfa : r.fresh ∉ (xs ++ (p, w) :: ys).map Prod.fst := hr.not_fresh_mem
  rw [List.map_append, List.map_cons] at hfa
  have hfxs : r.fresh ∉ xs.map Prod.fst := fun h => hfa (List.mem_append_left _ h)
  have hfp' : r.fresh ≠ p := fun h =>
    hfa (List.mem_append_right _ (h ▸ List.mem_cons_self _ _))
  have hfys : r.fresh ∉ ys.map Prod.fst := fun h =>
    hfa (List.mem_append_right _ (List.mem_cons_of_mem _ h))
  have heq : insert_after r pos v =
      (.ok ⟨some r.fresh, r.head, false⟩,
       ⟨(r.fresh, ⟨v, some (nextKey (nextKey 0 (xs ++ (p, w) :: ys)) ys)⟩) ::
          hsetNext r.heap p (some r.fresh),
        r.head, r.list_size + 1, r.fresh + 1⟩) := by
    unfold insert_after
    rw [hpos]
    dsimp only
    rw [hend, if_neg (by simp : ¬ (false = true))]
    rw [hfp]
  refine ⟨heq, ?_⟩
  rw [heq]
  -- the new store and its lookups
  set s0 := nextKey 0 (xs ++ (p, w) :: ys) with hs0
  set hp' : Heap α := (r.fresh, (⟨v, some (nextKey s0 ys)⟩ : Element α)) ::
    hsetNext r.heap p (some r.fresh) with hhp'
  have hfind_pres : ∀ i : Nat, i ≠ r.fresh → i ≠ p →
      hfind hp' i = hfind r.heap i := by
    intro i hif hip
    rw [hhp', hfind_cons, if_neg (fun h => hif h.symm), hfind_hsetNext, if_neg hip]
  have hfind_p : hfind hp' p = some ⟨w, some r.fresh⟩ := by
    rw [hhp', hfind_cons, if_neg hfp', hfind_hsetNext, if_pos rfl, hfp]
    rfl
  have hfind_f : hfind hp' r.fresh = some ⟨v, some (nextKey s0 ys)⟩ := by
    rw [hhp', hfind_cons, if_pos rfl]
  -- permutation bookkeeping on keys
  have hkeys' : ((xs ++ (p, w) :: (r.fresh, v) :: ys).map Prod.fst).Perm
      (r.fresh :: (xs ++ (p, w) :: ys).map Prod.fst) := by
    rw [List.map_append, List.map_cons, List.map_cons, List.map_append,
      List.map_cons]
    have h1 : xs.map Prod.fst ++ p :: r.fresh :: ys.map Prod.fst =
        (xs.map Prod.fst ++ [p]) ++ r.fresh :: ys.map Prod.fst := by simp
    have h2 : xs.map Prod.fst ++ p :: ys.map Prod.fst =
        (xs.map Prod.fst ++ [p]) ++ ys.map Prod.fst := by simp
    rw [h1, h2]
    exact List.perm_middle
  constructor
  · have := hr.size_eq
    simp at this ⊢
    omega
  · refine hkeys'.symm.nodup_iff.mp (List.nodup_cons.mpr ⟨?_, hr.nodup⟩)
    rw [List.map_append, List.map_cons]
    exact hfa
  · show r.head = headKey (xs ++ (p, w) :: (r.fresh, v) :: ys)
    rw [hr.head_eq]
    exact headKey_surgery xs p w w ys ((r.fresh, v) :: ys)
  · show ((hp').map Prod.fst).Perm _
    rw [hhp', List.map_cons, keys_hsetNext]
    exact ((hr.keys_perm).cons r.fresh).trans hkeys'.symm
  · intro i hi
    show i < r.fresh + 1
    have := hkeys'.mem_iff.mp hi
    rcases List.mem_cons.mp this with h | h
    · omega
    · have := hr.fresh_big i h
      omega
  · show chain hp' (nextKey 0 (xs ++ (p, w) :: (r.fresh, v) :: ys)) _
    have hstop : nextKey 0 (xs ++ (p, w) :: (r.fresh, v) :: ys) = s0 := by
      rw [hs0]
      exact nextKey_surgery xs p w w ((r.fresh, v) :: ys) ys
    rw [hstop, chain_append, nextKey_cons]
    refine ⟨?_, ?_, ?_, ?_⟩
    · refine chain_congr (fun i hi => ?_) hxs
      exact hfind_pres i (fun h => hfxs (h ▸ hi)) (fun h => hpxs (h ▸ hi))
    · show hfind hp' p = some ⟨w, some (nextKey s0 ((r.fresh, v) :: ys))⟩
      rw [nextKey_cons]
      exact hfind_p
    · exact hfind_f
    · refine chain_congr (fun i hi => ?_) hys
      exact hfind_pres i (fun h => hfys (h ▸ hi)) (fun h => hpys (h ▸ hi))

theorem erase_after_err_none {r : CircularLinkedList α} {pos : Iterator}
    (h : pos.element = none) :
    erase_after r pos = (.error .InvalidIterator, r) := by
  unfold erase_after
  rw [h]

theorem erase_after_err_adjacent {r : CircularLinkedList α} {pos : Iterator}
    {p : Nat} {pEl : Element α} (hpos : pos.element = some p)
    (hf : hfind r.heap p = some pEl) (hnext : pEl.next_element = r.head) :
    erase_after r pos = (.error .InvalidIterator, r) := by
  unfold erase_after
  rw [hpos]
  dsimp only
  rw [hf]
  dsimp only
  rw [if_pos hnext]

/-- The guard of `erase_after`, for any position whose node exists in
the store: the call reports `InvalidIterator` exactly when the node
after `pos` is `head`.  (The `isEnd` flag plays no role.) -/
theorem erase_after_guard {r : CircularLinkedList α} {pos : Iterator}
    {p : Nat} {pEl : Element α} (hpos : pos.element = some p)
    (hf : hfind r.heap p = some pEl) :
    (erase_after r pos).1 = .error .InvalidIterator ↔
      pEl.next_element = r.head := by
  constructor
  · intro h
    by_contra hne
    unfold erase_after at h
    rw [hpos] at h
    dsimp only at h
    rw [hf] at h
    dsimp only at h
    rw [if_neg hne] at h
    cases hnx : pEl.next_element with
    | none => rw [hnx] at h; simp at h
    | some j =>
        rw [hnx] at h
        dsimp only at h
        cases hj : hfind r.heap j with
        | none => rw [hj] at h; simp at h
        | some jEl => rw [hj] at h; simp at h
  · intro h
    rw [erase_after_err_adjacent hpos hf h]

theorem erase_after_spec {r : CircularLinkedList α} {cyc xs ys : List (Nat × α)}
    {p j : Nat} {w u : α} (hr : IsRing r cyc)
    (hcyc : cyc = xs ++ (p, w) :: (j, u) :: ys)
    {pos : Iterator} (hpos : pos.element = some p) :
    erase_after r pos =
      (.ok ⟨some (nextKey (nextKey 0 cyc) ys), r.head, false⟩,
       ⟨hdel (hsetNext r.heap p (some (nextKey (nextKey 0 cyc) ys))) j,
        r.head, r.list_size - 1, r.fresh⟩) ∧
    IsRing (erase_after r pos).2 (xs ++ (p, w) :: ys) := by
  subst hcyc
  have hch := hr.chain_ok
  rw [chain_append] at hch
  obtain ⟨hxs, hfp, hfj, hys⟩ := hch
  rw [nextKey_cons] at hxs hfp
  -- key distinctness facts
  have hnd := hr.nodup
  rw [List.map_append, List.map_cons, List.map_cons] at hnd
  have hdisj := List.disjoint_of_nodup_append hnd
  have hmidnd := hnd.of_append_right
  have hpj : p ≠ j :=
    (List.nodup_cons.mp hmidnd).1 ∘ (fun h => h ▸ List.mem_cons_self _ _)
  have hpys : p ∉ ys.map Prod.fst := fun h =>
    (List.nodup_cons.mp hmidnd).1 (List.mem_cons_of_mem _ h)
  have hjys : j ∉ ys.map Prod.fst :=
    (List.nodup_cons.mp (List.nodup_cons.mp hmidnd).2).1
  have hjxs : j ∉ xs.map Prod.fst := fun h =>
    hdisj h (List.mem_cons_of_mem _ (List.mem_cons_self _ _))
  have hpxs : p ∉ xs.map Prod.fst := fun h =>
    hdisj h (List.mem_cons_self _ _)
  -- the successor of p (the node j) is not the head
  have hhead_ne : ¬ ((some j : Ptr) = r.head) := by
    rw [hr.head_eq]
    cases xs with
    | nil =>
        show ¬ ((some j : Ptr) = headKey ((p, w) :: (j, u) :: ys))
        simp only [headKey, Option.some.injEq]
        exact fun h => hpj h.symm
    | cons e tl =>
        obtain ⟨k, kv⟩ := e
        show ¬ ((some j : Ptr) = headKey ((k, kv) :: (tl ++ (p, w) :: (j, u) :: ys)))
        simp only [headKey, Option.some.injEq]
        intro h
        have hkmem : k ∈ ((k, kv) :: tl).map Prod.fst :=
          List.mem_map.mpr ⟨(k, kv), List.mem_cons_self _ _, rfl⟩
        exact hjxs (by rw [h]; exact hkmem)
  set s0 := nextKey 0 (xs ++ (p, w) :: (j, u) :: ys) with hs0
  have heq : erase_after r pos =
      (.ok ⟨some (nextKey s0 ys), r.head, false⟩,
       ⟨hdel (hsetNext r.heap p (some (nextKey s0 ys))) j,
        r.head, r.list_size - 1, r.fresh⟩) := by
    unfold erase_after
    rw [hpos]
    dsimp only
    rw [hfp]
    dsimp only
    rw [if_neg hhead_ne]
    rw [hfj]
  refine ⟨heq, ?_⟩
  rw [heq]
  set hp' : Heap α := hdel (hsetNext r.heap p (some (nextKey s0 ys))) j with hhp'
  have hfind_pres : ∀ i : Nat, i ≠ j → i ≠ p →
      hfind hp' i = hfind r.heap i := by
    intro i hij hip
    rw [hhp', hfind_hdel, if_neg hij, hfind_hsetNext, if_neg hip]
  have hfind_p : hfind hp' p = some ⟨w, some (nextKey s0 ys)⟩ := by
    rw [hhp', hfind_hdel, if_neg hpj, hfind_hsetNext, if_pos rfl, hfp]
    rfl
  have hkeys' : ((xs ++ (p, w) :: (j, u) :: ys).map Prod.fst).Perm
      (j :: (xs ++ (p, w) :: ys).map Prod.fst) := by
    rw [List.map_append, List.map_cons, List.map_cons, List.map_append,
      List.map_cons]
    have h1 : xs.map Prod.fst ++ p :: j :: ys.map Prod.fst =
        (xs.map Prod.fst ++ [p]) ++ j :: ys.map Prod.fst := by simp
    have h2 : xs.map Prod.fst ++ p :: ys.map Prod.fst =
        (xs.map Prod.fst ++ [p]) ++ ys.map Prod.fst := by simp
    rw [h1, h2]
    exact List.perm_middle
  constructor
  · have := hr.size_eq
    simp at this ⊢
    omega
  · exact (hkeys'.nodup_iff.mp hr.nodup).of_cons
  · show r.head = headKey (xs ++ (p, w) :: ys)
    rw [hr.head_eq]
    exact headKey_surgery xs p w w ((j, u) :: ys) ys
  · show ((hp').map Prod.fst).Perm _
    rw [hhp', keys_hdel, keys_hsetNext]
    have h1 : ((r.heap.map Prod.fst).filter (fun k => decide (k ≠ j))).Perm
        (((j :: (xs ++ (p, w) :: ys).map Prod.fst)).filter
          (fun k => decide (k ≠ j))) :=
      List.Perm.filter _ (hr.keys_perm.trans hkeys')
    have h2 : ((j :: (xs ++ (p, w) :: ys).map Prod.fst)).filter
        (fun k => decide (k ≠ j)) = (xs ++ (p, w) :: ys).map Prod.fst := by
      rw [List.filter_cons, if_neg (by simp)]
      refine filter_ne_eq_self ?_
      rw [List.map_append, List.map_cons]
      intro hmem
      rcases List.mem_append.mp hmem with h | h
      · exact hjxs h
      · rcases List.mem_cons.mp h with h | h
        · exact hpj h.symm
        · exact hjys h
    rw [h2] at h1
    exact h1
  · intro i hi
    show i < r.fresh
    refine hr.fresh_big i ?_
    exact hkeys'.symm.subset (List.mem_cons_of_mem _ hi)
  · show chain hp' (nextKey 0 (xs ++ (p, w) :: ys)) _
    have hstop : nextKey 0 (xs ++ (p, w) :: ys) = s0 := by
      rw [hs0]
      exact nextKey_surgery xs p w w ys ((j, u) :: ys)
    rw [hstop, chain_append, nextKey_cons]
    refine ⟨?_, ?_, ?_⟩
    · refine chain_congr (fun i hi => ?_) hxs
      exact hfind_pres i (fun h => hjxs (h ▸ hi)) (fun h => hpxs (h ▸ hi))
    · exact hfind_p
    · refine chain_congr (fun i hi => ?_) hys
      exact hfind_pres i (fun h => hjys (h ▸ hi)) (fun h => hpys (h ▸ hi))

theorem clear_isRing (r : CircularLinkedList α) :
    IsRing (clear r) ([] : List (Nat × α)) := by
  refine ⟨rfl, by simp, rfl, by simp [clear], by simp, trivial⟩

/-! ### Iteration over a well-formed ring -/

theorem advanceN_succ (r : CircularLinkedList α) (it : Iterator) (n : Nat) :
    advanceN r it (n + 1) =
      match advance r it with
      | .error e => .error e
      | .ok it' => advanceN r it' n := rfl

theorem advanceN_peel_back (r : CircularLinkedList α) (m : Nat) :
    ∀ it, advanceN r it (m + 1) =
      match advanceN r it m with
      | .error e => .error e
      | .ok it' => advance r it' := by
  induction m with
  | zero =>
      intro it
      rw [advanceN_succ]
      show (match advance r it with
        | .error e => (.error e : Except Err Iterator)
        | .ok it' => advanceN r it' 0) = advance r it
      cases advance r it with
      | error e => rfl
      | ok it' => rfl
  | succ m ihm =>
      intro it
      rw [advanceN_succ]
      show (match advance r it with
        | .error e => (.error e : Except Err Iterator)
        | .ok it' => advanceN r it' (m + 1)) =
        match advanceN r it (m + 1) with
        | .error e => .error e
        | .ok it' => advance r it'
      rw [advanceN_succ]
      cases advance r it with
      | error e => rfl
      | ok it' => exact ihm it'

theorem advance_at {r : CircularLinkedList α} {cyc : List (Nat × α)}
    (hr : IsRing r cyc) (k : Nat) (hk : k < cyc.length) :
    advance r ⟨some ((cyc.get ⟨k, hk⟩).1), r.head, false⟩ =
      .ok ⟨some ((cyc.get ⟨(k + 1) % cyc.length, Nat.mod_lt _ (by omega)⟩).1),
           r.head, decide ((k + 1) % cyc.length = 0)⟩ := by
  unfold advance
  rw [if_neg (by simp)]
  have hd : derefP r.heap (some ((cyc.get ⟨k, hk⟩).1)) =
      some ⟨(cyc.get ⟨k, hk⟩).2,
            some ((cyc.get ⟨(k + 1) % cyc.length, Nat.mod_lt _ (by omega)⟩).1)⟩ :=
    hr.nodeAt k hk
  rw [hd]
  dsimp only
  congr 1
  have hiff : (some ((cyc.get ⟨(k + 1) % cyc.length, Nat.mod_lt _ (by omega)⟩).1)
      = r.head) ↔ ((k + 1) % cyc.length = 0) := by
    rw [hr.headPtr (by omega)]
    constructor
    · intro h
      exact hr.keyAt_inj _ _ (by simpa using h)
    · intro h
      have : (⟨(k + 1) % cyc.length, Nat.mod_lt _ (by omega)⟩ : Fin cyc.length) =
          ⟨0, by omega⟩ := Fin.ext (by simpa using h)
      rw [this]
  rw [decide_eq_decide.mpr hiff]

theorem advanceN_at {r : CircularLinkedList α} {cyc : List (Nat × α)}
    (hr : IsRing r cyc) :
    ∀ (k s : Nat) (hsk : s + k < cyc.length),
      advanceN r ⟨some ((cyc.get ⟨s, by omega⟩).1), r.head, false⟩ k =
        .ok ⟨some ((cyc.get ⟨s + k, hsk⟩).1), r.head, false⟩ := by
  intro k
  induction k with
  | zero => intro s hsk; rfl
  | succ k ih =>
      intro s hsk
      show advanceN r _ (k + 1) = _
      unfold advanceN
      rw [advance_at hr s (by omega)]
      dsimp only
      have hs1 : (s + 1) % cyc.length = s + 1 := Nat.mod_eq_of_lt (by omega)
      have hidx : (⟨(s + 1) % cyc.length, Nat.mod_lt _ (by omega)⟩ : Fin cyc.length) =
          ⟨s + 1, by omega⟩ := Fin.ext (by simpa using hs1)
      have hd : decide ((s + 1) % cyc.length = 0) = false := by
        simp [hs1]
      rw [hidx, hd, ih (s + 1) (by omega)]
      have hidx2 : (⟨s + 1 + k, by omega⟩ : Fin cyc.length) = ⟨s + (k + 1), hsk⟩ :=
        Fin.ext (show s + 1 + k = s + (k + 1) by omega)
      rw [hidx2]

/-- A full pass: advancing `size` times from `begin` lands exactly on
the `end` iterator. -/
theorem advanceN_full {r : CircularLinkedList α} {cyc : List (Nat × α)}
    (hr : IsRing r cyc) (hne : 0 < cyc.length) :
    advanceN r (begin r) cyc.length = .ok ⟨r.head, r.head, true⟩ := by
  have hb : begin r = ⟨some ((cyc.get ⟨0, hne⟩).1), r.head, false⟩ := by
    unfold begin
    rw [hr.headPtr hne]
  cases hn : cyc.length with
  | zero => omega
  | succ m =>
      have hm : m < cyc.length := by omega
      -- first m advances stay inside the ring
      have h1 : advanceN r (begin r) m =
          .ok ⟨some ((cyc.get ⟨m, hm⟩).1), r.head, false⟩ := by
        rw [hb]
        have := advanceN_at hr m 0 (by omega)
        simpa using this
      -- the (m+1)-st advance wraps to the head and flags the end state
      have h2 : advance r ⟨some ((cyc.get ⟨m, hm⟩).1), r.head, false⟩ =
          .ok ⟨r.head, r.head, true⟩ := by
        rw [advance_at hr m hm]
        have hm1 : (m + 1) % cyc.length = 0 := by
          rw [hn]
          simp
        have hidx : (⟨(m + 1) % cyc.length, Nat.mod_lt _ (by omega)⟩ :
            Fin cyc.length) = ⟨0, hne⟩ := Fin.ext (by simpa using hm1)
        rw [hidx, hm1]
        rw [← hr.headPtr hne]
        simp
      -- stitch the two parts together
      rw [advanceN_peel_back r m (begin r), h1]
      exact h2

/-- The canonical iteration loop, started at cycle position `s`, visits
the remaining `size - s` values and stops at `end`. -/
theorem iterCollect_at {r : CircularLinkedList α} {cyc : List (Nat × α)}
    (hr : IsRing r cyc) :
    ∀ (f s : Nat), s + f = cyc.length → (hs : s < cyc.length) →
      iterCollect r ⟨some ((cyc.get ⟨s, hs⟩).1), r.head, false⟩ f =
        some ((cyc.map Prod.snd).drop s) := by
  intro f
  induction f with
  | zero => intro s hf hs; omega
  | succ f ih =>
      intro s hf hs
      unfold iterCollect
      rw [if_neg (by simp [iterEq, endIter])]
      have hderef : derefIter r ⟨some ((cyc.get ⟨s, hs⟩).1), r.head, false⟩ =
          .ok (cyc.get ⟨s, hs⟩).2 := by
        unfold derefIter
        rw [if_neg (by simp)]
        rw [(show derefP r.heap (some ((cyc.get ⟨s, hs⟩).1)) = _ from hr.nodeAt s hs)]
      rw [hderef, advance_at hr s hs]
      dsimp only
      have hdrop : (cyc.map Prod.snd).drop s =
          (cyc.get ⟨s, hs⟩).2 :: (cyc.map Prod.snd).drop (s + 1) := by
        rw [List.drop_eq_getElem_cons (by simpa using hs)]
        simp
      by_cases hlast : s + 1 = cyc.length
      · have hm1 : (s + 1) % cyc.length = 0 := by rw [hlast]; simp
        have hidx : (⟨(s + 1) % cyc.length, Nat.mod_lt _ (by omega)⟩ :
            Fin cyc.length) = ⟨0, by omega⟩ := Fin.ext (by simpa using hm1)
        rw [hidx, hm1]
        have hf0 : f = 0 := by omega
        subst hf0
        unfold iterCollect
        rw [if_pos ?_]
        · rw [hdrop]
          have : (cyc.map Prod.snd).drop (s + 1) = [] := by
            apply List.drop_eq_nil_of_le
            simp [hlast]
          rw [this]
          rfl
        · show iterEq ⟨some ((cyc.get ⟨0, by omega⟩).1), r.head, decide True⟩
            (endIter r) = true
          unfold iterEq endIter
          rw [← hr.headPtr (by omega)]
          simp
      · have hs1 : (s + 1) % cyc.length = s + 1 := Nat.mod_eq_of_lt (by omega)
        have hidx : (⟨(s + 1) % cyc.length, Nat.mod_lt _ (by omega)⟩ :
            Fin cyc.length) = ⟨s + 1, by omega⟩ := Fin.ext (by simpa using hs1)
        have hd : decide ((s + 1) % cyc.length = 0) = false := by simp [hs1]
        rw [hidx, hd, ih (s + 1) (by omega) (by omega), hdrop]
        rfl

/-- Iterating a nonempty well-formed ring from `begin` with fuel `size`
visits exactly the ring's value sequence. -/
theorem iterCollect_begin {r : CircularLinkedList α} {cyc : List (Nat × α)}
    (hr : IsRing r cyc) (hne : 0 < cyc.length) :
    iterCollect r (begin r) cyc.length = some (cyc.map Prod.snd) := by
  have hb : begin r = ⟨some ((cyc.get ⟨0, hne⟩).1), r.head, false⟩ := by
    unfold begin
    rw [hr.headPtr hne]
  rw [hb]
  have := iterCollect_at hr cyc.length 0 (by omega) hne
  simpa using this

/-! ### Building rings by pushing -/

theorem foldl_push_isRing (vs : List α) :
    ∀ (r : CircularLinkedList α) (cyc : List (Nat × α)), IsRing r cyc →
      ∃ cyc', IsRing (List.foldl push_front r vs) cyc' ∧
        cyc'.map Prod.snd = vs.reverse ++ cyc.map Prod.snd := by
  induction vs with
  | nil => exact fun r cyc hr => ⟨cyc, hr, by simp⟩
  | cons v vs ih =>
      intro r cyc hr
      obtain ⟨cyc1, hr1, hv1⟩ := push_front_isRing hr v
      obtain ⟨cyc', hr', hv'⟩ := ih (push_front r v) cyc1 hr1
      refine ⟨cyc', hr', ?_⟩
      rw [hv', hv1]
      simp

theorem pushAll_isRing (vs : List α) :
    ∃ cyc, IsRing (pushAll vs) cyc ∧ cyc.map Prod.snd = vs.reverse := by
  obtain ⟨cyc, hr, hv⟩ := foldl_push_isRing vs emptyList [] (isRing_empty α)
  exact ⟨cyc, hr, by simpa using hv⟩

/-! ### The rotation-searching equality operator -/

theorem innerLoop_iff [DecidableEq α] {ha hb : Heap α} :
    ∀ {n : Nat} {pa pb : Ptr} {A B : List α},
      readN ha pa n = some A → readN hb pb n = some B →
      (innerLoop ha hb pa pb n = true ↔ A = B) := by
  intro n
  induction n with
  | zero =>
      intro pa pb A B hA hB
      simp [readN] at hA hB
      subst hA
      subst hB
      simp [innerLoop]
  | succ n ih =>
      intro pa pb A B hA hB
      rw [readN_succ] at hA hB
      cases hda : derefP ha pa with
      | none => rw [hda] at hA; simp at hA
      | some ea =>
          rw [hda] at hA
          cases hdb : derefP hb pb with
          | none => rw [hdb] at hB; simp at hB
          | some eb =>
              rw [hdb] at hB
              dsimp only at hA hB
              cases hra : readN ha ea.next_element n with
              | none => rw [hra] at hA; simp at hA
              | some A' =>
                  cases hrb : readN hb eb.next_element n with
                  | none => rw [hrb] at hB; simp at hB
                  | some B' =>
                      rw [hra] at hA
                      rw [hrb] at hB
                      simp at hA hB
                      unfold innerLoop
                      rw [hda, hdb]
                      dsimp only
                      by_cases hv : ea.value = eb.value
                      · rw [if_pos hv, ih hra hrb, ← hA, ← hB, hv]
                        constructor
                        · intro h
                          rw [h]
                        · intro h
                          exact (List.cons_inj_right _).mp h
                      · rw [if_neg hv]
                        constructor
                        · intro h
                          simp at h
                        · intro h
                          rw [← hA, ← hB] at h
                          simp at h
                          exact absurd h.1 hv

theorem innerLoop_unfold_one [DecidableEq α] {ha hb : Heap α} {pa pb : Ptr}
    {ea eb : Element α} (hpa : derefP ha pa = some ea)
    (hpb : derefP hb pb = some eb) (n : Nat) :
    innerLoop ha hb pa pb (n + 1) =
      if ea.value = eb.value then
        innerLoop ha hb ea.next_element eb.next_element n
      else false := by
  conv_lhs => unfold innerLoop
  rw [hpa, hpb]

theorem outerLoop_unfold_one [DecidableEq α] {ha hb : Heap α} {pa pb : Ptr}
    {ea eb : Element α} (hpa : derefP ha pa = some ea)
    (hpb : derefP hb pb = some eb) (sz i : Nat) :
    outerLoop ha hb sz pa pb (i + 1) =
      if ea.value = eb.value then
        if innerLoop ha hb ea.next_element eb.next_element (sz - 1) then true
        else outerLoop ha hb sz pa eb.next_element i
      else outerLoop ha hb sz pa eb.next_element i := by
  conv_lhs => unfold outerLoop
  rw [hpa, hpb]

/-- The outer loop of `operator==`, started with `other_current` at
cycle position `s` of the right ring and `i` iterations left, succeeds
exactly when some alignment `t ∈ [s, size)` matches the whole left
value sequence against the right one rotated by `t`. -/
theorem outerLoop_iff [DecidableEq α] {ra rb : CircularLinkedList α}
    {cyca cycb : List (Nat × α)} (hra : IsRing ra cyca) (hrb : IsRing rb cycb)
    (hlen : cyca.length = cycb.length) (hne : 0 < cycb.length) :
    ∀ (i s : Nat), s + i = cycb.length →
      (outerLoop ra.heap rb.heap cycb.length ra.head
          (some ((cycb.get ⟨s % cycb.length, Nat.mod_lt _ (by omega)⟩).1)) i =
          true ↔
        ∃ t, s ≤ t ∧ t < cycb.length ∧
          cyca.map Prod.snd = (cycb.map Prod.snd).rotate t) := by
  intro i
  induction i with
  | zero =>
      intro s hs
      constructor
      · intro h
        simp [outerLoop] at h
      · intro ⟨t, ht1, ht2, _⟩
        omega
  | succ i ih =>
      intro s hs
      have hslt : s < cycb.length := by omega
      have hnea : 0 < cyca.length := by omega
      have hidxs : (⟨s % cycb.length, Nat.mod_lt _ (by omega)⟩ : Fin cycb.length) =
          ⟨s, hslt⟩ := Fin.ext (by simpa using Nat.mod_eq_of_lt hslt)
      rw [hidxs]
      have hda : derefP ra.heap ra.head =
          some ⟨(cyca.get ⟨0, hnea⟩).2,
                some ((cyca.get ⟨1 % cyca.length, Nat.mod_lt _ (by omega)⟩).1)⟩ := by
        rw [hra.headPtr hnea]
        exact hra.nodeAt 0 hnea
      have hdb : derefP rb.heap (some ((cycb.get ⟨s, hslt⟩).1)) =
          some ⟨(cycb.get ⟨s, hslt⟩).2,
                some ((cycb.get ⟨(s + 1) % cycb.length,
                  Nat.mod_lt _ (by omega)⟩).1)⟩ :=
        hrb.nodeAt s hslt
      rw [outerLoop_unfold_one hda hdb]
      -- a full inner pass from alignment s decides `A = B.rotate s`
      have hA : readN ra.heap ra.head cycb.length =
          some (cyca.map Prod.snd) := by
        rw [← hlen]
        exact hra.readN_head hnea
      have hB : readN rb.heap (some ((cycb.get ⟨s, hslt⟩).1)) cycb.length =
          some ((cycb.map Prod.snd).rotate s) := hrb.readN_rot s hslt
      have hfull : innerLoop ra.heap rb.heap ra.head
          (some ((cycb.get ⟨s, hslt⟩).1)) cycb.length = true ↔
          cyca.map Prod.snd = (cycb.map Prod.snd).rotate s :=
        innerLoop_iff hA hB
      have hsz1 : cycb.length - 1 + 1 = cycb.length := by omega
      have hunf := innerLoop_unfold_one hda hdb (cycb.length - 1)
      rw [hsz1] at hunf
      rw [hunf] at hfull
      have htail := ih (s + 1) (by omega)
      constructor
      · intro h
        by_cases hv : (cyca.get ⟨0, hnea⟩).2 = (cycb.get ⟨s, hslt⟩).2
        · rw [if_pos hv] at h
          by_cases hi : innerLoop ra.heap rb.heap
              (some ((cyca.get ⟨1 % cyca.length, Nat.mod_lt _ (by omega)⟩).1))
              (some ((cycb.get ⟨(s + 1) % cycb.length,
                Nat.mod_lt _ (by omega)⟩).1)) (cycb.length - 1) = true
          · have hm : cyca.map Prod.snd = (cycb.map Prod.snd).rotate s :=
              hfull.mp (by rw [if_pos hv]; exact hi)
            exact ⟨s, le_refl s, hslt, hm⟩
          · rw [if_neg hi] at h
            obtain ⟨t, ht1, ht2, ht3⟩ := htail.mp h
            exact ⟨t, by omega, ht2, ht3⟩
        · rw [if_neg hv] at h
          obtain ⟨t, ht1, ht2, ht3⟩ := htail.mp h
          exact ⟨t, by omega, ht2, ht3⟩
      · intro ⟨t, ht1, ht2, ht3⟩
        rcases Nat.eq_or_lt_of_le ht1 with heqt | hltt
        · -- the alignment at s itself matches in full
          have hm : cyca.map Prod.snd = (cycb.map Prod.snd).rotate s := by
            rw [← heqt] at ht3
            exact ht3
          have hg := hfull.mpr hm
          by_cases hv : (cyca.get ⟨0, hnea⟩).2 = (cycb.get ⟨s, hslt⟩).2
          · rw [if_pos hv] at hg
            rw [if_pos hv, if_pos hg]
          · rw [if_neg hv] at hg
            simp at hg
        · -- a later alignment matches: the remaining loop finds it
          have h' := htail.mpr ⟨t, by omega, ht2, ht3⟩
          by_cases hv : (cyca.get ⟨0, hnea⟩).2 = (cycb.get ⟨s, hslt⟩).2
          · rw [if_pos hv]
            by_cases hi : innerLoop ra.heap rb.heap
                (some ((cyca.get ⟨1 % cyca.length, Nat.mod_lt _ (by omega)⟩).1))
                (some ((cycb.get ⟨(s + 1) % cycb.length,
                  Nat.mod_lt _ (by omega)⟩).1)) (cycb.length - 1) = true
            · rw [if_pos hi]
            · rw [if_neg hi]
              exact h'
          · rw [if_neg hv]
            exact h'

/-- `operator==` holds exactly when the left value sequence is a
rotation of the right one (for well-formed rings). -/
theorem ringEq_iff [DecidableEq α] {ra rb : CircularLinkedList α}
    {cyca cycb : List (Nat × α)} (hra : IsRing ra cyca) (hrb : IsRing rb cycb) :
    (ringEq ra rb = true ↔
      ∃ k, cyca.map Prod.snd = (cycb.map Prod.snd).rotate k) := by
  unfold ringEq
  by_cases hsz : ra.list_size ≠ rb.list_size
  · rw [if_pos hsz]
    have hlen : cyca.length ≠ cycb.length := by
      rw [← hra.size_eq, ← hrb.size_eq]
      exact hsz
    constructor
    · intro h
      simp at h
    · intro ⟨k, hk⟩
      have := congrArg List.length hk
      simp at this
      exact absurd this hlen
  · rw [if_neg hsz]
    push_neg at hsz
    have hlen : cyca.length = cycb.length := by
      rw [← hra.size_eq, ← hrb.size_eq]
      exact hsz
    by_cases hha : ra.head = none
    · have hca : cyca = [] := hra.head_none_iff.mp hha
      have hcb : cycb = [] := by
        have : cycb.length = 0 := by rw [← hlen, hca]; rfl
        exact List.length_eq_zero.mp this
      rw [if_pos ⟨hha, hrb.head_none_iff.mpr hcb⟩]
      simp [hca, hcb, List.rotate]
    · have hca : cyca ≠ [] := fun h => hha (hra.head_none_iff.mpr h)
      have hcb : cycb ≠ [] := by
        intro h
        have : cyca.length = 0 := by rw [hlen, h]; rfl
        exact hca (List.length_eq_zero.mp this)
      have hhb : rb.head ≠ none := fun h => hcb (hrb.head_none_iff.mp h)
      rw [if_neg (fun h => hha h.1), if_neg (fun h => h.elim hha hhb)]
      have hneb : 0 < cycb.length := List.length_pos.mpr hcb
      have hb0 : rb.head = some ((cycb.get ⟨0, hneb⟩).1) := hrb.headPtr hneb
      have hsz' : ra.list_size = cycb.length := by rw [hsz, hrb.size_eq]
      have hOL := outerLoop_iff hra hrb hlen hneb cycb.length 0 (by omega)
      have hidx0 : (⟨0 % cycb.length, Nat.mod_lt _ (by omega)⟩ : Fin cycb.length) =
          ⟨0, hneb⟩ := Fin.ext (by simp)
      rw [hidx0] at hOL
      rw [hb0, hsz', hOL]
      constructor
      · intro ⟨t, _, _, ht⟩
        exact ⟨t, ht⟩
      · intro ⟨k, hk⟩
        refine ⟨k % cycb.length, Nat.zero_le _, Nat.mod_lt _ (by omega), ?_⟩
        have hblen : (cycb.map Prod.snd).length = cycb.length := by simp
        rw [← hblen, List.rotate_mod, hk]

/-! ### Decomposing a ring at a successful iterator position -/

theorem hfind_none_of_not_mem {hp : Heap α} {i : Nat}
    (h : i ∉ hp.map Prod.fst) : hfind hp i = none := by
  cases hf : hfind hp i with
  | none => rfl
  | some e => exact absurd (mem_keys_of_hfind hf) h

theorem mem_keys_index {cyc : List (Nat × α)} {i : Nat}
    (h : i ∈ cyc.map Prod.fst) :
    ∃ (k : Nat) (hk : k < cyc.length), (cyc.get ⟨k, hk⟩).1 = i := by
  rcases List.mem_iff_get.mp h with ⟨n, hn⟩
  have hlt : n.1 < cyc.length := by
    have := n.2
    simpa using this
  refine ⟨n.1, hlt, ?_⟩
  rw [← hn, List.get_eq_getElem, List.get_eq_getElem, List.getElem_map]

theorem cyc_decomp {cyc : List (Nat × α)} {k : Nat} (hk : k < cyc.length) :
    cyc = cyc.take k ++ cyc.get ⟨k, hk⟩ :: cyc.drop (k + 1) := by
  conv_lhs => rw [← List.take_append_drop k cyc]
  congr 1
  rw [List.drop_eq_getElem_cons (by omega)]
  rfl

theorem cyc_decomp2 {cyc : List (Nat × α)} {k : Nat} (hk1 : k + 1 < cyc.length) :
    cyc = cyc.take k ++ cyc.get ⟨k, by omega⟩ ::
      cyc.get ⟨k + 1, hk1⟩ :: cyc.drop (k + 2) := by
  conv_lhs => rw [cyc_decomp (show k < cyc.length by omega)]
  congr 2
  rw [List.drop_eq_getElem_cons (by omega : k + 1 < cyc.length)]
  rfl

/-- A successful `insert_after` pins its position to a cycle index. -/
theorem insert_after_ok_index {r : CircularLinkedList α} {cyc : List (Nat × α)}
    {pos : Iterator} {v : α} {it' : Iterator} (hr : IsRing r cyc)
    (hok : (insert_after r pos v).1 = .ok it') :
    ∃ (k : Nat) (hk : k < cyc.length),
      pos.element = some ((cyc.get ⟨k, hk⟩).1) ∧ pos.isEnd = false := by
  cases hpe : pos.element with
  | none => rw [insert_after_err_none hpe] at hok; simp at hok
  | some p =>
      cases hend : pos.isEnd with
      | true => rw [insert_after_err_end hpe hend] at hok; simp at hok
      | false =>
          cases hfp : hfind r.heap p with
          | none =>
              unfold insert_after at hok
              rw [hpe] at hok
              dsimp only at hok
              rw [hend, if_neg (by simp : ¬ (false = true)), hfp] at hok
              simp at hok
          | some pEl =>
              have hpk : p ∈ cyc.map Prod.fst :=
                hr.keys_perm.mem_iff.mp (mem_keys_of_hfind hfp)
              obtain ⟨k, hk, hkey⟩ := mem_keys_index hpk
              exact ⟨k, hk, by rw [hkey], rfl⟩

/-- A successful `erase_after` pins its position to a cycle index whose
successor is not the head (hence not the last position). -/
theorem erase_after_ok_index {r : CircularLinkedList α} {cyc : List (Nat × α)}
    {pos : Iterator} {it' : Iterator} (hr : IsRing r cyc)
    (hok : (erase_after r pos).1 = .ok it') :
    ∃ (k : Nat) (hk1 : k + 1 < cyc.length),
      pos.element = some ((cyc.get ⟨k, by omega⟩).1) := by
  cases hpe : pos.element with
  | none => rw [erase_after_err_none hpe] at hok; simp at hok
  | some p =>
      cases hfp : hfind r.heap p with
      | none =>
          unfold erase_after at hok
          rw [hpe] at hok
          dsimp only at hok
          rw [hfp] at hok
          simp at hok
      | some pEl =>
          have hpk : p ∈ cyc.map Prod.fst :=
            hr.keys_perm.mem_iff.mp (mem_keys_of_hfind hfp)
          obtain ⟨k, hk, hkey⟩ := mem_keys_index hpk
          -- the guard must have been false
          have hguard : ¬ (pEl.next_element = r.head) := by
            intro hg
            rw [erase_after_err_adjacent hpe hfp hg] at hok
            simp at hok
          -- identify pEl through the cycle structure
          have hnode := hr.nodeAt k hk
          rw [hkey, hfp] at hnode
          have hpEl : pEl = ⟨(cyc.get ⟨k, hk⟩).2,
              some ((cyc.get ⟨(k + 1) % cyc.length,
                Nat.mod_lt _ (by omega)⟩).1)⟩ := by
            exact Option.some.inj hnode
          have hne : (k + 1) % cyc.length ≠ 0 := by
            intro h0
            apply hguard
            rw [hpEl]
            dsimp only
            rw [hr.headPtr (by omega)]
            have hidx : (⟨(k + 1) % cyc.length, Nat.mod_lt _ (by omega)⟩ :
                Fin cyc.length) = ⟨0, by omega⟩ := Fin.ext (by simpa using h0)
            rw [hidx]
          have hk1 : k + 1 < cyc.length := by
            rcases Nat.lt_or_ge (k + 1) cyc.length with h | h
            · exact h
            · have : k + 1 = cyc.length := by omega
              exact absurd (by rw [this]; simp) hne
          exact ⟨k, hk1, by rw [hkey]⟩

/-! ### Reachable states -/

/-- The list states produced by the public operations, starting from a
default-constructed list.  Fallible operations contribute only their
successful outcomes (a throwing call leaves the list unchanged, see the
no-mutation-on-error theorem). -/
inductive Reachable : CircularLinkedList α → Prop where
  | empty : Reachable emptyList
  | push (r : CircularLinkedList α) (v : α) :
      Reachable r → Reachable (push_front r v)
  | pop (r : CircularLinkedList α) :
      Reachable r → (pop_front r).1 = .ok () → Reachable (pop_front r).2
  | ins (r : CircularLinkedList α) (pos : Iterator) (v : α) (it' : Iterator) :
      Reachable r → (insert_after r pos v).1 = .ok it' →
      Reachable (insert_after r pos v).2
  | erase (r : CircularLinkedList α) (pos : Iterator) (it' : Iterator) :
      Reachable r → (erase_after r pos).1 = .ok it' →
      Reachable (erase_after r pos).2
  | clr (r : CircularLinkedList α) : Reachable r → Reachable (clear r)

/-- Every reachable list state is a well-formed ring. -/
theorem reachable_isRing {r : CircularLinkedList α} (h : Reachable r) :
    ∃ cyc, IsRing r cyc := by
  induction h with
  | empty => exact ⟨[], isRing_empty α⟩
  | push r v _ ih =>
      obtain ⟨cyc, hr⟩ := ih
      obtain ⟨cyc', hr', _⟩ := push_front_isRing hr v
      exact ⟨cyc', hr'⟩
  | pop r _ hok ih =>
      obtain ⟨cyc, hr⟩ := ih
      cases hc : cyc with
      | nil =>
          rw [hc] at hr
          rw [pop_front_empty (hr.head_none_iff.mpr rfl)] at hok
          simp at hok
      | cons e rest =>
          obtain ⟨h0, w0⟩ := e
          cases hrest : rest with
          | nil =>
              rw [hc, hrest] at hr
              exact ⟨[], (pop_front_isRing_single hr).2⟩
          | cons e1 rest2 =>
              obtain ⟨j1, w1⟩ := e1
              rw [hc, hrest] at hr
              exact ⟨(h0, w1) :: rest2, (pop_front_isRing_cons hr).2⟩
  | ins r pos v it' _ hok ih =>
      obtain ⟨cyc, hr⟩ := ih
      obtain ⟨k, hk, hpe, hend⟩ := insert_after_ok_index hr hok
      have hcyc : cyc = cyc.take k ++
          ((cyc.get ⟨k, hk⟩).1, (cyc.get ⟨k, hk⟩).2) :: cyc.drop (k + 1) :=
        cyc_decomp hk
      exact ⟨_, (insert_after_spec hr hcyc hpe hend v).2⟩
  | erase r pos it' _ hok ih =>
      obtain ⟨cyc, hr⟩ := ih
      obtain ⟨k, hk1, hpe⟩ := erase_after_ok_index hr hok
      have hcyc : cyc = cyc.take k ++
          ((cyc.get ⟨k, by omega⟩).1, (cyc.get ⟨k, by omega⟩).2) ::
          ((cyc.get ⟨k + 1, hk1⟩).1, (cyc.get ⟨k + 1, hk1⟩).2) ::
          cyc.drop (k + 2) := cyc_decomp2 hk1
      exact ⟨_, (erase_after_spec hr hcyc hpe).2⟩
  | clr r _ _ => exact ⟨[], clear_isRing r⟩

/-! ### Counting pushes and pops -/

/-- Run a sequence of front operations: `some v` is `push_front v`,
`none` is `pop_front`.  A throwing `pop_front` aborts the run with its
error. -/
def runOps : CircularLinkedList α → List (Option α) →
    Except Err (CircularLinkedList α)
  | r, [] => .ok r
  | r, some v :: ops => runOps (push_front r v) ops
  | r, none :: ops =>
    match pop_front r with
    | (.ok _, r') => runOps r' ops
    | (.error e, _) => .error e

theorem IsRing.hfind_head {r : CircularLinkedList α} {cyc : List (Nat × α)}
    {h : Nat} (hr : IsRing r cyc) (hh : r.head = some h) :
    ∃ e, hfind r.heap h = some e := by
  have hh' := hh
  rw [hr.head_eq] at hh'
  cases cyc with
  | nil => simp [headKey] at hh'
  | cons e rest =>
      obtain ⟨k, w⟩ := e
      have hk : k = h := by simpa [headKey] using hh'
      have : h ∈ r.heap.map Prod.fst :=
        hr.keys_perm.mem_iff.mpr (by simp [← hk])
      exact hfind_mem_keys this

theorem runOps_aux (ops : List (Option α)) :
    ∀ (r : CircularLinkedList α) (cyc : List (Nat × α)), IsRing r cyc →
      (∀ pre suf, ops = pre ++ none :: suf →
        pre.countP (fun o => o.isNone) < r.list_size +
          pre.countP (fun o => o.isSome)) →
      ∃ r' cyc', runOps r ops = .ok r' ∧ IsRing r' cyc' ∧
        r'.list_size + ops.countP (fun o => o.isNone) =
          r.list_size + ops.countP (fun o => o.isSome) := by
  induction ops with
  | nil =>
      intro r cyc hr _
      exact ⟨r, cyc, rfl, hr, by simp⟩
  | cons o ops ih =>
      intro r cyc hr hpre
      cases o with
      | some v =>
          obtain ⟨cyc1, hr1, _⟩ := push_front_isRing hr v
          have hsz1 : (push_front r v).list_size = r.list_size + 1 := by
            cases hh : r.head with
            | none => simp [push_front, hh]
            | some h =>
                cases hf : hfind r.heap h with
                | none =>
                    obtain ⟨e, he⟩ := hr.hfind_head hh
                    rw [he] at hf
                    simp at hf
                | some hEl => simp [push_front, hh, hf]
          have hpre1 : ∀ pre suf, ops = pre ++ none :: suf →
              pre.countP (fun o => o.isNone) <
                (push_front r v).list_size + pre.countP (fun o => o.isSome) := by
            intro pre suf hsel
            have := hpre (some v :: pre) suf (by rw [hsel]; rfl)
            simp [List.countP_cons] at this ⊢
            omega
          obtain ⟨r', cyc', hrun, hr', hcount⟩ := ih (push_front r v) cyc1 hr1 hpre1
          refine ⟨r', cyc', ?_, hr', ?_⟩
          · show runOps r (some v :: ops) = .ok r'
            unfold runOps
            exact hrun
          · rw [hsz1] at hcount
            simp [List.countP_cons]
            omega
      | none =>
          -- a pop: the prefix condition at the empty prefix gives nonemptiness
          have hpos : 0 < r.list_size := by
            have := hpre [] ops rfl
            simpa using this
          have hcne : cyc ≠ [] := by
            intro h
            rw [hr.size_eq, h] at hpos
            simp at hpos
          -- pop succeeds, with the two shapes of nonempty rings
          have hstep : ∃ cyc1, (pop_front r).1 = .ok () ∧
              IsRing (pop_front r).2 cyc1 ∧
              (pop_front r).2.list_size = r.list_size - 1 := by
            cases hc : cyc with
            | nil => exact absurd hc hcne
            | cons e rest =>
                obtain ⟨h0, w0⟩ := e
                cases hrest : rest with
                | nil =>
                    rw [hc, hrest] at hr
                    obtain ⟨heq, hring⟩ := pop_front_isRing_single hr
                    exact ⟨[], by rw [heq], hring, by rw [heq]⟩
                | cons e1 rest2 =>
                    obtain ⟨j1, w1⟩ := e1
                    rw [hc, hrest] at hr
                    obtain ⟨heq, hring⟩ := pop_front_isRing_cons hr
                    exact ⟨(h0, w1) :: rest2, by rw [heq], hring, by rw [heq]⟩
          obtain ⟨cyc1, hok, hr1, hsz1⟩ := hstep
          have hpre1 : ∀ pre suf, ops = pre ++ none :: suf →
              pre.countP (fun o => o.isNone) <
                (pop_front r).2.list_size + pre.countP (fun o => o.isSome) := by
            intro pre suf hsel
            have := hpre (none :: pre) suf (by rw [hsel]; rfl)
            simp [List.countP_cons] at this ⊢
            omega
          obtain ⟨r', cyc', hrun, hr', hcount⟩ := ih (pop_front r).2 cyc1 hr1 hpre1
          refine ⟨r', cyc', ?_, hr', ?_⟩
          · show runOps r (none :: ops) = .ok r'
            unfold runOps
            cases hp : pop_front r with
            | mk res r2 =>
                rw [hp] at hok hrun
                dsimp only at hok hrun
                rw [hok]
                dsimp only
                exact hrun
          · rw [hsz1] at hcount
            simp [List.countP_cons]
            omega

/-! ### Claim theorems -/

/-- C7: every failing mutating operation (`pop_front`, `insert_after`,
`erase_after`) performs no structural change before failing: whenever
the call reports an error, the resulting list state is exactly the
input state.  (`front`, iterator dereference and iterator advance are
modelled as pure queries — their C++ bodies never write to the list, so
for them the property holds by the shape of their embedding.) -/
theorem C7_no_mutation_on_error (r : CircularLinkedList α) (pos : Iterator)
    (v : α) :
    (∀ e : Err, (pop_front r).1 = .error e → (pop_front r).2 = r) ∧
    (∀ e : Err, (insert_after r pos v).1 = .error e →
      (insert_after r pos v).2 = r) ∧
    (∀ e : Err, (erase_after r pos).1 = .error e → (erase_after r pos).2 = r) := by
  refine ⟨?_, ?_, ?_⟩
  · intro e he
    unfold pop_front at he ⊢
    cases hh : r.head with
    | none => rfl
    | some h =>
        rw [hh] at he
        dsimp only at he ⊢
        cases hf : hfind r.heap h with
        | none => rfl
        | some hEl =>
            rw [hf] at he
            dsimp only at he ⊢
            by_cases hnx : hEl.next_element = some h
            · rw [if_pos hnx] at he
              simp at he
            · rw [if_neg hnx] at he ⊢
              cases hne : hEl.next_element with
              | none => rfl
              | some j =>
                  rw [hne] at he
                  dsimp only at he ⊢
                  cases hj : hfind r.heap j with
                  | none => rfl
                  | some jEl =>
                      rw [hj] at he
                      simp at he
  · intro e he
    unfold insert_after at he ⊢
    cases hpe : pos.element with
    | none => rfl
    | some p =>
        rw [hpe] at he
        dsimp only at he ⊢
        by_cases hend : pos.isEnd = true
        · rw [if_pos hend]
        · rw [if_neg hend] at he ⊢
          cases hf : hfind r.heap p with
          | none => rfl
          | some pEl =>
              rw [hf] at he
              simp at he
  · intro e he
    unfold erase_after at he ⊢
    cases hpe : pos.element with
    | none => rfl
    | some p =>
        rw [hpe] at he
        dsimp only at he ⊢
        cases hf : hfind r.heap p with
        | none => rfl
        | some pEl =>
            rw [hf] at he
            dsimp only at he ⊢
            by_cases hg : pEl.next_element = r.head
            · rw [if_pos hg]
            · rw [if_neg hg] at he ⊢
              cases hne : pEl.next_element with
              | none => rfl
              | some j =>
                  rw [hne] at he
                  dsimp only at he ⊢
                  cases hj : hfind r.heap j with
                  | none => rfl
                  | some jEl =>
                      rw [hj] at he
                      simp at he

/-- C9: `push_front` on a nonempty ring and `pop_front` on a ring of at
least two nodes never reassign the `head` field to a different node:
the head pointer of the resulting list is the head pointer of the input
list. -/
theorem C9_head_identity_stable {r : CircularLinkedList α}
    {cyc : List (Nat × α)} (hr : IsRing r cyc) (v : α) :
    (r.head ≠ none → (push_front r v).head = r.head) ∧
    (2 ≤ r.list_size →
      (pop_front r).1 = .ok () ∧ (pop_front r).2.head = r.head) := by
  constructor
  · intro hne
    cases hh : r.head with
    | none => exact absurd hh hne
    | some h =>
        obtain ⟨e, he⟩ := hr.hfind_head hh
        unfold push_front
        rw [hh]
        dsimp only
        rw [he]
  · intro hsz
    have hlen : 2 ≤ cyc.length := by rw [← hr.size_eq]; exact hsz
    cases hc : cyc with
    | nil => rw [hc] at hlen; simp at hlen
    | cons e rest =>
        obtain ⟨h0, w0⟩ := e
        cases hrest : rest with
        | nil => rw [hc, hrest] at hlen; simp at hlen
        | cons e1 rest2 =>
            obtain ⟨j1, w1⟩ := e1
            rw [hc, hrest] at hr
            obtain ⟨heq, _⟩ := pop_front_isRing_cons hr
            rw [heq]
            exact ⟨rfl, rfl⟩

/-- C10: whenever `erase_after` succeeds, the returned iterator is not
past-end: its `isEnd` flag is false, it never compares equal to the
resulting list's `end()` iterator, and when it references the head node
it compares equal to the resulting list's `begin()`. -/
theorem C10_erase_result_not_end (r : CircularLinkedList α) (pos it' : Iterator)
    (hok : (erase_after r pos).1 = .ok it') :
    it'.isEnd = false ∧
    iterEq it' (endIter (erase_after r pos).2) = false ∧
    (it'.element = (erase_after r pos).2.head →
      iterEq it' (begin (erase_after r pos).2) = true) := by
  have hshape : it'.isEnd = false := by
    unfold erase_after at hok
    cases hpe : pos.element with
    | none => rw [hpe] at hok; simp at hok
    | some p =>
        rw [hpe] at hok
        dsimp only at hok
        cases hf : hfind r.heap p with
        | none => rw [hf] at hok; simp at hok
        | some pEl =>
            rw [hf] at hok
            dsimp only at hok
            by_cases hg : pEl.next_element = r.head
            · rw [if_pos hg] at hok; simp at hok
            · rw [if_neg hg] at hok
              cases hne : pEl.next_element with
              | none => rw [hne] at hok; simp at hok
              | some j =>
                  rw [hne] at hok
                  dsimp only at hok
                  cases hj : hfind r.heap j with
                  | none => rw [hj] at hok; simp at hok
                  | some jEl =>
                      rw [hj] at hok
                      simp at hok
                      rw [← hok]
  refine ⟨hshape, ?_, ?_⟩
  · unfold iterEq endIter
    rw [hshape]
    simp
  · intro helem
    unfold iterEq begin
    rw [hshape, helem]
    simp

/-- C5: `pop_front` fails with `EmptyContainer` on a zero-size ring and
leaves it untouched; on a one-node ring it deletes the sole node and
leaves the ring empty; on a ring of two or more nodes it succeeds,
copies the second node's value into the head node (which then links to
the second node's successor), deletes the second node, keeps the head
pointer, and decrements the size. -/
theorem C5_pop_front_spec {r : CircularLinkedList α} {cyc : List (Nat × α)}
    (hr : IsRing r cyc) :
    (r.list_size = 0 → pop_front r = (.error .EmptyContainer, r)) ∧
    (r.list_size = 1 → (pop_front r).1 = .ok () ∧ (pop_front r).2.head = none ∧
      (pop_front r).2.list_size = 0 ∧ (pop_front r).2.heap = []) ∧
    (∀ (h0 j1 : Nat) (w0 w1 : α) (rest2 : List (Nat × α)),
      cyc = (h0, w0) :: (j1, w1) :: rest2 →
      (pop_front r).1 = .ok () ∧
      (pop_front r).2.head = r.head ∧
      (pop_front r).2.list_size = r.list_size - 1 ∧
      hfind (pop_front r).2.heap h0 = some ⟨w1, some (nextKey h0 rest2)⟩ ∧
      hfind (pop_front r).2.heap j1 = none) := by
  refine ⟨?_, ?_, ?_⟩
  · intro hsz
    have hc : cyc = [] := by
      have := hr.size_eq
      rw [hsz] at this
      exact List.length_eq_zero.mp this.symm
    exact pop_front_empty (hr.head_none_iff.mpr hc)
  · intro hsz
    have hlen : cyc.length = 1 := by rw [← hr.size_eq]; exact hsz
    cases hc : cyc with
    | nil => rw [hc] at hlen; simp at hlen
    | cons e rest =>
        obtain ⟨h0, w0⟩ := e
        cases hrest : rest with
        | cons e1 rest2 => rw [hc, hrest] at hlen; simp at hlen
        | nil =>
            rw [hc, hrest] at hr
            obtain ⟨heq, _⟩ := pop_front_isRing_single hr
            rw [heq]
            exact ⟨rfl, rfl, by rw [hsz], rfl⟩
  · intro h0 j1 w0 w1 rest2 hc
    rw [hc] at hr
    obtain ⟨heq, hring⟩ := pop_front_isRing_cons hr
    obtain ⟨hc1, _⟩ := hring.chain_ok
    have hnd := hr.nodup
    have hj1 : j1 ∉ ((h0, w1) :: rest2).map Prod.fst := by
      intro hm
      rcases (by simpa using hm : j1 = h0 ∨ ∃ x, (j1, x) ∈ rest2) with h | ⟨x, hx⟩
      · exact (List.nodup_cons.mp hnd).1 (List.mem_cons.mpr (Or.inl h.symm))
      · exact (List.nodup_cons.mp (List.nodup_cons.mp hnd).2).1
          (List.mem_map.mpr ⟨(j1, x), hx, rfl⟩)
    refine ⟨by rw [heq], by rw [heq], by rw [heq], ?_, ?_⟩
    · exact hc1
    · refine hfind_none_of_not_mem ?_
      intro hm
      exact hj1 (hring.keys_perm.mem_iff.mp hm)

/-- C6: `insert_after` fails with `InvalidIterator` exactly on a
node-less or past-end position and leaves the list untouched; on a
valid position it links a fresh node holding `v` immediately after the
position's node (the fresh node inheriting the old successor link),
increments the size, and returns a non-past-end iterator referencing
the fresh node, which dereferences to `v`. -/
theorem C6_insert_after_spec {r : CircularLinkedList α} {cyc : List (Nat × α)}
    (hr : IsRing r cyc) (pos : Iterator) (v : α) :
    ((pos.element = none ∨ pos.isEnd = true) →
      insert_after r pos v = (.error .InvalidIterator, r)) ∧
    (∀ (k : Nat) (hk : k < cyc.length),
      pos.element = some ((cyc.get ⟨k, hk⟩).1) → pos.isEnd = false →
      ∃ q, hfind r.heap ((cyc.get ⟨k, hk⟩).1) =
          some ⟨(cyc.get ⟨k, hk⟩).2, q⟩ ∧
        (insert_after r pos v).1 = .ok ⟨some r.fresh, r.head, false⟩ ∧
        (insert_after r pos v).2.list_size = r.list_size + 1 ∧
        hfind (insert_after r pos v).2.heap ((cyc.get ⟨k, hk⟩).1) =
          some ⟨(cyc.get ⟨k, hk⟩).2, some r.fresh⟩ ∧
        hfind (insert_after r pos v).2.heap r.fresh = some ⟨v, q⟩ ∧
        derefIter (insert_after r pos v).2 ⟨some r.fresh, r.head, false⟩ =
          .ok v) := by
  constructor
  · intro herr
    rcases herr with h | h
    · exact insert_after_err_none h v
    · cases hpe : pos.element with
      | none => exact insert_after_err_none hpe v
      | some p => exact insert_after_err_end hpe h v
  · intro k hk hpe hend
    have hcyc : cyc = cyc.take k ++
        ((cyc.get ⟨k, hk⟩).1, (cyc.get ⟨k, hk⟩).2) :: cyc.drop (k + 1) :=
      cyc_decomp hk
    obtain ⟨heq, hring⟩ := insert_after_spec hr hcyc hpe hend v
    -- the old successor pointer of the position's node
    refine ⟨some (nextKey (nextKey 0 cyc) (cyc.drop (k + 1))), ?_, ?_, ?_, ?_, ?_, ?_⟩
    · -- the node at position k in the original ring
      have hch := hr.chain_ok
      conv at hch => rw [hcyc]
      rw [chain_append] at hch
      obtain ⟨_, hmid, _⟩ := hch
      have hstop : nextKey 0 (cyc.take k ++
          ((cyc.get ⟨k, hk⟩).1, (cyc.get ⟨k, hk⟩).2) :: cyc.drop (k + 1)) =
          nextKey 0 cyc := by rw [← hcyc]
      rw [hstop] at hmid
      exact hmid
    · rw [heq]
    · rw [heq]
    · -- the position's node now links to the fresh node
      rw [heq]
      dsimp only
      have hfk : r.fresh ≠ (cyc.get ⟨k, hk⟩).1 := by
        intro h
        exact hr.not_fresh_mem (h ▸ List.mem_map.mpr
          ⟨cyc.get ⟨k, hk⟩, List.get_mem cyc _ _, rfl⟩)
      rw [hfind_cons, if_neg hfk, hfind_hsetNext, if_pos rfl]
      have hch := hr.chain_ok
      conv at hch => rw [hcyc]
      rw [chain_append] at hch
      obtain ⟨_, hmid, _⟩ := hch
      have hstop : nextKey 0 (cyc.take k ++
          ((cyc.get ⟨k, hk⟩).1, (cyc.get ⟨k, hk⟩).2) :: cyc.drop (k + 1)) =
          nextKey 0 cyc := by rw [← hcyc]
      rw [hstop] at hmid
      rw [hmid]
      rfl
    · rw [heq]
      dsimp only
      rw [hfind_cons, if_pos rfl]
    · rw [heq]
      unfold derefIter
      rw [if_neg (by simp)]
      dsimp only
      show (match hfind _ r.fresh with
        | none => (.error Err.UB : Except Err α)
        | some el => .ok el.value) = .ok v
      rw [hfind_cons, if_pos rfl]

/-- C3 (amended): `erase_after(pos)` fails with `InvalidIterator` iff
`pos` references no node or the node following `pos`'s node is `head`
itself; the past-end flag is NOT consulted, so a past-end iterator
whose node's successor is not `head` is accepted.  Consequently a
successful `erase_after` never deletes the head node (front removal is
achievable only through `pop_front`). -/
theorem C3_erase_guard_amended (r : CircularLinkedList α) (pos : Iterator) :
    (pos.element = none → (erase_after r pos).1 = .error .InvalidIterator) ∧
    (∀ (p : Nat) (pEl : Element α), pos.element = some p →
      hfind r.heap p = some pEl →
      ((erase_after r pos).1 = .error .InvalidIterator ↔
        pEl.next_element = r.head)) ∧
    (∀ (it' : Iterator) (h : Nat) (hv : Element α),
      (erase_after r pos).1 = .ok it' → r.head = some h →
      hfind r.heap h = some hv →
      ∃ hv', hfind (erase_after r pos).2.heap h = some hv') := by
  refine ⟨?_, ?_, ?_⟩
  · intro h
    rw [erase_after_err_none h]
  · intro p pEl hpos hf
    exact erase_after_guard hpos hf
  · intro it' h hv hok hh hvf
    unfold erase_after at hok ⊢
    cases hpe : pos.element with
    | none => rw [hpe] at hok; simp at hok
    | some p =>
        rw [hpe] at hok
        dsimp only at hok ⊢
        cases hf : hfind r.heap p with
        | none => rw [hf] at hok; simp at hok
        | some pEl =>
            rw [hf] at hok
            dsimp only at hok ⊢
            by_cases hg : pEl.next_element = r.head
            · rw [if_pos hg] at hok
              simp at hok
            · rw [if_neg hg] at hok ⊢
              cases hne : pEl.next_element with
              | none => rw [hne] at hok; simp at hok
              | some j =>
                  rw [hne] at hok
                  dsimp only at hok ⊢
                  cases hj : hfind r.heap j with
                  | none => rw [hj] at hok; simp at hok
                  | some jEl =>
                      rw [hj] at hok
                      dsimp only
                      have hjh : h ≠ j := by
                        intro heq
                        apply hg
                        rw [hne, hh, heq]
                      rw [hfind_hdel, if_neg hjh, hfind_hsetNext]
                      by_cases hp : h = p
                      · rw [if_pos hp, hf]
                        exact ⟨_, rfl⟩
                      · rw [if_neg hp]
                        exact ⟨hv, hvf⟩

/-- C1: building a ring by a nonempty sequence of `push_front` calls,
`front()` returns the value pushed last, and a full `begin()`-to-`end()`
iteration pass yields the pushed values most-recently-pushed first; on
a nonempty ring `push_front` installs the new node immediately after
`head` and exchanges its value with `head`'s value. -/
theorem C1_push_front_lifo (vs : List α) (hvs : vs ≠ []) :
    (∃ w, vs.getLast? = some w ∧ front (pushAll vs) = .ok w) ∧
    iterCollect (pushAll vs) (begin (pushAll vs)) (size (pushAll vs)) =
      some vs.reverse ∧
    (∀ (r : CircularLinkedList α) (cyc : List (Nat × α)) (h0 : Nat)
      (hEl : Element α) (v : α), IsRing r cyc → r.head = some h0 →
      hfind r.heap h0 = some hEl →
      (push_front r v).head = some h0 ∧
      hfind (push_front r v).heap h0 = some ⟨v, some r.fresh⟩ ∧
      hfind (push_front r v).heap r.fresh =
        some ⟨hEl.value, hEl.next_element⟩) := by
  obtain ⟨cyc, hr, hv⟩ := pushAll_isRing vs
  have hne : cyc ≠ [] := by
    intro h
    rw [h] at hv
    exact hvs (List.reverse_eq_nil_iff.mp hv.symm)
  have hlen : 0 < cyc.length := List.length_pos.mpr hne
  refine ⟨?_, ?_, ?_⟩
  · cases hc : cyc with
    | nil => exact absurd hc hne
    | cons e rest =>
        obtain ⟨h0, w0⟩ := e
        rw [hc] at hr hv
        refine ⟨w0, ?_, ?_⟩
        · rw [← List.head?_reverse, ← hv]
          rfl
        · show front (pushAll vs) = .ok w0
          unfold front
          rw [(hr.head_eq : (pushAll vs).head = some h0)]
          show (match hfind (pushAll vs).heap h0 with
            | none => (.error Err.UB : Except Err α)
            | some hEl => .ok hEl.value) = .ok w0
          rw [hr.chain_ok.1]
  · show iterCollect (pushAll vs) (begin (pushAll vs))
      (pushAll vs).list_size = some vs.reverse
    rw [hr.size_eq, iterCollect_begin hr hlen, hv]
  · intro r cyc' h0 hEl v hr' hh hf
    have hfr : r.fresh ≠ h0 := by
      have hmem : h0 ∈ cyc'.map Prod.fst :=
        hr'.keys_perm.mem_iff.mp (mem_keys_of_hfind hf)
      have := hr'.fresh_big h0 hmem
      omega
    have heq : push_front r v =
        ⟨(r.fresh, ⟨hEl.value, hEl.next_element⟩) ::
          hsetVal (hsetNext r.heap h0 (some r.fresh)) h0 v,
         r.head, r.list_size + 1, r.fresh + 1⟩ := by
      unfold push_front
      rw [hh]
      dsimp only
      rw [hf]
    rw [heq]
    refine ⟨hh, ?_, ?_⟩
    · show hfind ((r.fresh, ⟨hEl.value, hEl.next_element⟩) ::
        hsetVal (hsetNext r.heap h0 (some r.fresh)) h0 v) h0 = _
      rw [hfind_cons, if_neg hfr, hfind_hsetVal, if_pos rfl, hfind_hsetNext,
        if_pos rfl, hf]
      rfl
    · show hfind ((r.fresh, ⟨hEl.value, hEl.next_element⟩) ::
        hsetVal (hsetNext r.heap h0 (some r.fresh)) h0 v) r.fresh = _
      rw [hfind_cons, if_pos rfl]

/-- C2 (amended): on a NONEMPTY well-formed ring, advancing the
iterator returned by `begin()` exactly `size()` times yields an
iterator equal to `end()`; on an empty ring `begin()` and `end()` are
NOT equal (their `isEnd` flags differ); advancing a past-end iterator
fails with `InvalidAdvance`. -/
theorem C2_advance_pass_amended {r : CircularLinkedList α}
    {cyc : List (Nat × α)} (hr : IsRing r cyc) :
    (0 < r.list_size →
      ∃ it, advanceN r (begin r) (size r) = .ok it ∧
        iterEq it (endIter r) = true) ∧
    (r.head = none → iterEq (begin r) (endIter r) = false) ∧
    (∀ it : Iterator, it.isEnd = true →
      advance r it = .error .InvalidAdvance) := by
  refine ⟨?_, ?_, ?_⟩
  · intro hpos
    have hlen : 0 < cyc.length := by rw [← hr.size_eq]; exact hpos
    refine ⟨⟨r.head, r.head, true⟩, ?_, ?_⟩
    · show advanceN r (begin r) r.list_size = _
      rw [hr.size_eq]
      exact advanceN_full hr hlen
    · unfold iterEq endIter
      simp
  · intro _
    unfold iterEq begin endIter
    simp
  · intro it hend
    unfold advance
    rw [if_pos (Or.inr hend)]

/-- C4: two well-formed rings compare equal under `operator==` iff they
have equal size and one value sequence is a rotation of the other
(read from the respective heads); in particular empty rings are equal
only to each other. -/
theorem C4_equality_rotation [DecidableEq α] {ra rb : CircularLinkedList α}
    {cyca cycb : List (Nat × α)} (hra : IsRing ra cyca) (hrb : IsRing rb cycb) :
    (ringEq ra rb = true ↔
      size ra = size rb ∧
        ∃ k, cyca.map Prod.snd = (cycb.map Prod.snd).rotate k) := by
  rw [ringEq_iff hra hrb]
  constructor
  · intro ⟨k, hk⟩
    refine ⟨?_, ⟨k, hk⟩⟩
    show ra.list_size = rb.list_size
    rw [hra.size_eq, hrb.size_eq]
    have := congrArg List.length hk
    simpa using this
  · intro ⟨_, h⟩
    exact h

/-- C8: in every state reachable by the public operations, `empty()` is
true iff `size()` is zero and `size()` equals the number of nodes in
the store; and a run of pushes and pops (every prefix popping less than
it pushed) succeeds with final size `n - m` for `n` pushes and `m`
pops. -/
theorem C8_size_node_count (α : Type) :
    (∀ r : CircularLinkedList α, Reachable r →
      ((emptyq r = true ↔ size r = 0) ∧ size r = r.heap.length)) ∧
    (∀ ops : List (Option α),
      (∀ pre suf, ops = pre ++ none :: suf →
        pre.countP (fun o => o.isNone) < pre.countP (fun o => o.isSome)) →
      ∃ r', runOps emptyList ops = .ok r' ∧
        r'.list_size = ops.countP (fun o => o.isSome) -
          ops.countP (fun o => o.isNone) ∧
        ops.countP (fun o => o.isNone) ≤ ops.countP (fun o => o.isSome)) := by
  constructor
  · intro r hreach
    obtain ⟨cyc, hr⟩ := reachable_isRing hreach
    constructor
    · show decide (r.head = none) = true ↔ r.list_size = 0
      rw [decide_eq_true_eq, hr.head_none_iff, hr.size_eq]
      constructor
      · intro h
        rw [h]
        rfl
      · intro h
        exact List.length_eq_zero.mp h
    · show r.list_size = r.heap.length
      rw [hr.size_eq]
      have h1 : r.heap.length = (r.heap.map Prod.fst).length := by simp
      have h2 := hr.keys_perm.length_eq
      simp at h2
      omega
  · intro ops hpre
    have hz : (emptyList : CircularLinkedList α).list_size = 0 := rfl
    obtain ⟨r', cyc', hrun, hr', hcount⟩ :=
      runOps_aux ops emptyList [] (isRing_empty α)
        (by
          intro pre suf hsel
          have := hpre pre suf hsel
          rw [hz]
          simpa using this)
    rw [hz] at hcount
    refine ⟨r', hrun, by omega, by omega⟩

/-! ### Concrete witnesses and counterexamples -/

theorem C1_witness :
    (∃ w, ([3, 2, 1] : List Int).getLast? = some w ∧
      front (pushAll [(3 : Int), 2, 1]) = .ok w) ∧
    iterCollect (pushAll [(3 : Int), 2, 1]) (begin (pushAll [(3 : Int), 2, 1]))
      (size (pushAll [(3 : Int), 2, 1])) = some [1, 2, 3] := by
  have h := C1_push_front_lifo [(3 : Int), 2, 1] (by simp)
  refine ⟨h.1, ?_⟩
  rw [h.2.1]
  rfl

theorem C2_counterexample :
    size (emptyList : CircularLinkedList Int) = 0 ∧
    advanceN (emptyList : CircularLinkedList Int)
      (begin (emptyList : CircularLinkedList Int))
      (size (emptyList : CircularLinkedList Int)) =
      .ok (begin (emptyList : CircularLinkedList Int)) ∧
    iterEq (begin (emptyList : CircularLinkedList Int))
      (endIter (emptyList : CircularLinkedList Int)) = false :=
  ⟨rfl, rfl, rfl⟩

theorem C2_witness :
    ∃ it, advanceN (pushAll [(3 : Int), 2, 1])
      (begin (pushAll [(3 : Int), 2, 1]))
      (size (pushAll [(3 : Int), 2, 1])) = .ok it ∧
      iterEq it (endIter (pushAll [(3 : Int), 2, 1])) = true := by
  obtain ⟨cyc, hr, hv⟩ := pushAll_isRing [(3 : Int), 2, 1]
  exact (C2_advance_pass_amended hr).1 (by decide)

theorem C3_counterexample :
    (endIter (pushAll [(2 : Int), 1])).isEnd = true ∧
    (erase_after (pushAll [(2 : Int), 1])
      (endIter (pushAll [(2 : Int), 1]))).1 = .ok ⟨some 0, some 0, false⟩ :=
  ⟨rfl, rfl⟩

theorem C3_witness :
    (erase_after (pushAll [(2 : Int), 1])
      (endIter (pushAll [(2 : Int), 1]))).1 ≠ .error .InvalidIterator := by
  have h := (C3_erase_guard_amended (pushAll [(2 : Int), 1])
    (endIter (pushAll [(2 : Int), 1]))).2.1 0 ⟨1, some 1⟩ rfl rfl
  intro hc
  exact absurd (h.mp hc) (by decide)

theorem C4_witness :
    ringEq (pushAll [(3 : Int), 2, 1]) (pushAll [(1 : Int), 3, 2]) = true := by
  obtain ⟨cyca, hra, hva⟩ := pushAll_isRing [(3 : Int), 2, 1]
  obtain ⟨cycb, hrb, hvb⟩ := pushAll_isRing [(1 : Int), 3, 2]
  refine (C4_equality_rotation hra hrb).mpr ⟨rfl, 2, ?_⟩
  rw [hva, hvb]
  decide

theorem C5_witness :
    pop_front (emptyList : CircularLinkedList Int) =
      (.error .EmptyContainer, emptyList) ∧
    (pop_front (pushAll [(1 : Int)])).1 = .ok () ∧
    (pop_front (pushAll [(1 : Int)])).2.head = none := by
  have hr1 : IsRing (pushAll [(1 : Int)]) [((0 : Nat), (1 : Int))] :=
    ⟨rfl, by decide, rfl, List.Perm.refl _, by decide, ⟨rfl, trivial⟩⟩
  have h2 := (C5_pop_front_spec hr1).2.1 rfl
  exact ⟨(C5_pop_front_spec (isRing_empty Int)).1 rfl, h2.1, h2.2.1⟩

theorem C6_witness :
    (insert_after (pushAll [(1 : Int)]) (begin (pushAll [(1 : Int)])) 2).1 =
      .ok ⟨some 1, some 0, false⟩ ∧
    (insert_after (pushAll [(1 : Int)])
      (begin (pushAll [(1 : Int)])) 2).2.list_size = 2 ∧
    derefIter (insert_after (pushAll [(1 : Int)]) (begin (pushAll [(1 : Int)])) 2).2
      ⟨some 1, some 0, false⟩ = .ok 2 := by
  have hr1 : IsRing (pushAll [(1 : Int)]) [((0 : Nat), (1 : Int))] :=
    ⟨rfl, by decide, rfl, List.Perm.refl _, by decide, ⟨rfl, trivial⟩⟩
  obtain ⟨q, _, hok, hsz, _, _, hderef⟩ :=
    (C6_insert_after_spec hr1 (begin (pushAll [(1 : Int)])) 2).2 0 (by decide)
      rfl rfl
  exact ⟨hok, hsz, hderef⟩

theorem C7_witness :
    (pop_front (emptyList : CircularLinkedList Int)).2 = emptyList := by
  exact (C7_no_mutation_on_error (emptyList : CircularLinkedList Int)
    (begin (emptyList : CircularLinkedList Int)) 0).1 .EmptyContainer rfl

theorem C8_witness :
    size (push_front (emptyList : CircularLinkedList Int) 1) =
      (push_front (emptyList : CircularLinkedList Int) 1).heap.length ∧
    ∃ r', runOps (emptyList : CircularLinkedList Int)
        [some 1, some 2, none] = .ok r' ∧
      r'.list_size = ([some (1 : Int), some 2, none].countP (fun o => o.isSome)) -
        ([some (1 : Int), some 2, none].countP (fun o => o.isNone)) ∧
      ([some (1 : Int), some 2, none].countP (fun o => o.isNone)) ≤
        ([some (1 : Int), some 2, none].countP (fun o => o.isSome)) := by
  constructor
  · exact ((C8_size_node_count Int).1 _
      (Reachable.push emptyList 1 Reachable.empty)).2
  · refine (C8_size_node_count Int).2 [some 1, some 2, none] ?_
    intro pre suf h
    cases pre with
    | nil => simp at h
    | cons a pre1 =>
        cases pre1 with
        | nil => simp at h
        | cons b pre2 =>
            cases pre2 with
            | nil =>
                simp at h
                obtain ⟨ha, hb, _⟩ := h
                subst ha
                subst hb
                decide
            | cons c pre3 => simp at h

theorem C9_witness :
    (push_front (pushAll [(2 : Int), 1]) 5).head = (pushAll [(2 : Int), 1]).head ∧
    (pop_front (pushAll [(2 : Int), 1])).2.head = (pushAll [(2 : Int), 1]).head := by
  have hr2 : IsRing (pushAll [(2 : Int), 1])
      [((0 : Nat), (1 : Int)), ((1 : Nat), (2 : Int))] :=
    ⟨rfl, by decide, rfl, by decide, by decide, ⟨rfl, rfl, trivial⟩⟩
  have h := C9_head_identity_stable hr2 5
  exact ⟨h.1 (by decide), (h.2 (by decide)).2⟩

theorem C10_witness :
    iterEq ⟨some 0, some 0, false⟩
      (endIter (erase_after (pushAll [(2 : Int), 1])
        (begin (pushAll [(2 : Int), 1]))).2) = false := by
  exact (C10_erase_result_not_end (pushAll [(2 : Int), 1])
    (begin (pushAll [(2 : Int), 1])) ⟨some 0, some 0, false⟩ rfl).2.1

end CircularList
